import Mathlib

/-!
Verification of the rail-network economic simulation core in
`src/GameEconomicsAndMechanics.ts`.

Each definition is a shallow embedding of the corresponding TypeScript
function or class; theorems check the spec's claims against these
definitions.  JavaScript number arithmetic on the formula side is
modelled over `ℝ`/`ℚ` (exact idealization of the float formulas), gold
(`bigint`) over `ℤ`, and object identity (players, stations, tiles,
clusters) by natural-number identifiers.
-/

namespace RailMind

/-! ## EconomicConfig (`EconomicConfig` in the source) -/

/-- `EconomicConfig.trainSpawnRate`:
`Math.min(1400, Math.round(40 * Math.pow(numberOfStations, 0.5)))`,
with `Math.pow(s, 0.5)` and `Math.round` modelled over the reals. -/
noncomputable def trainSpawnRate (numberOfStations : ℕ) : ℤ :=
  min 1400 (round (40 * Real.sqrt numberOfStations))

/-- `EconomicConfig.trainGold`: `isFriendly ? 100_000n : 25_000n`. -/
def trainGold (isFriendly : Bool) : ℤ :=
  if isFriendly then 100000 else 25000

/-- `EconomicConfig.trainStationMinRange`: 15. -/
def trainStationMinRange : ℕ := 15

/-- `EconomicConfig.trainStationMaxRange`: 80. -/
def trainStationMaxRange : ℕ := 80

/-- `EconomicConfig.railroadMaxSize`: 100. -/
def railroadMaxSize : ℕ := 100

/-- The `totalMultiplier` accumulation loop of `EconomicConfig.tradeShipGold`:
starts at `1` and adds `basePortBonus * diminishingFactor ^ i`
(`0.25 * 0.9 ^ i`) for `i = 0, …, numPorts - 1`. -/
def totalMultiplier : ℕ → ℚ
  | 0 => 1
  | n + 1 => totalMultiplier n + (1 / 4) * (9 / 10) ^ n

/-- `EconomicConfig.tradeShipGold`:
`baseGold = Math.floor(50000 + 100 * dist)`, then
`BigInt(Math.floor(baseGold * totalMultiplier))`. -/
def tradeShipGold (dist numPorts : ℕ) : ℤ :=
  let baseGold : ℤ := ⌊(50000 + 100 * (dist : ℚ))⌋
  ⌊(baseGold : ℚ) * totalMultiplier numPorts⌋

theorem totalMultiplier_eq_sum (n : ℕ) :
    totalMultiplier n = 1 + ∑ i ∈ Finset.range n, (1 / 4 : ℚ) * (9 / 10) ^ i := by
  induction n with
  | zero => simp [totalMultiplier]
  | succ k ih => rw [totalMultiplier, ih, Finset.sum_range_succ]; ring

theorem sqrt_25 : Real.sqrt 25 = 5 := by
  rw [show (25 : ℝ) = 5 ^ 2 by norm_num, Real.sqrt_sq (by norm_num)]

theorem sqrt_1225 : Real.sqrt 1225 = 35 := by
  rw [show (1225 : ℝ) = 35 ^ 2 by norm_num, Real.sqrt_sq (by norm_num)]

theorem trainSpawnRate_monotone : Monotone trainSpawnRate := by
  intro a b hab
  unfold trainSpawnRate
  refine min_le_min le_rfl ?_
  rw [round_eq, round_eq]
  refine Int.floor_mono ?_
  have h := Real.sqrt_le_sqrt (by exact_mod_cast (Nat.cast_le.mpr hab) : (a : ℝ) ≤ b)
  nlinarith [h]

/-- C7: `trainSpawnRate(s) = min(1400, round(40 * sqrt(s)))` with
`trainSpawnRate(25) = 200`, `trainSpawnRate(1225) = 1400`, the cap first
reached at `1225 = 35²` (every smaller station count gives a rate below
1400), and the rate monotonically non-decreasing in the station count. -/
theorem claim_C7_trainSpawnRate :
    (∀ s, trainSpawnRate s = min 1400 (round (40 * Real.sqrt s)))
    ∧ trainSpawnRate 25 = 200
    ∧ trainSpawnRate 1225 = 1400
    ∧ (∀ s < 1225, trainSpawnRate s < 1400)
    ∧ Monotone trainSpawnRate := by
  have h25 : trainSpawnRate 25 = 200 := by
    unfold trainSpawnRate
    rw [show ((25 : ℕ) : ℝ) = 25 by norm_num, sqrt_25]
    rw [show (40 * (5 : ℝ)) = ((200 : ℤ) : ℝ) by norm_num, round_intCast]
    norm_num
  have h1225 : trainSpawnRate 1225 = 1400 := by
    unfold trainSpawnRate
    rw [show ((1225 : ℕ) : ℝ) = 1225 by norm_num, sqrt_1225]
    rw [show (40 * (35 : ℝ)) = ((1400 : ℤ) : ℝ) by norm_num, round_intCast]
    norm_num
  have h1224 : trainSpawnRate 1224 < 1400 := by
    unfold trainSpawnRate
    have hs : Real.sqrt 1224 < 1399.5 / 40 := by
      have h2 : (0 : ℝ) ≤ 1399.5 / 40 := by norm_num
      have := Real.sqrt_lt_sqrt (by norm_num : (0:ℝ) ≤ 1224)
        (by norm_num : (1224 : ℝ) < (1399.5 / 40) ^ 2)
      calc Real.sqrt 1224 < Real.sqrt ((1399.5 / 40) ^ 2) := this
        _ = 1399.5 / 40 := Real.sqrt_sq h2
    have hr : round (40 * Real.sqrt ((1224 : ℕ) : ℝ)) < 1400 := by
      rw [round_eq]
      refine Int.floor_lt.mpr ?_
      push_cast
      nlinarith [hs]
    exact lt_of_le_of_lt (min_le_right _ _) hr
  refine ⟨fun s => rfl, h25, h1225, fun s hs => ?_, trainSpawnRate_monotone⟩
  have hmono := trainSpawnRate_monotone (Nat.le_pred_of_lt hs)
  exact lt_of_le_of_lt hmono h1224

/-- C8: `tradeShipGold(dist, numPorts) = floor((50000 + 100*dist) *
(1 + Σ_{i<numPorts} 0.25 * 0.9^i))`, with `tradeShipGold(0,0) = 50000`
and `tradeShipGold(100,1) = 75000`. -/
theorem claim_C8_tradeShipGold :
    (∀ dist numPorts, tradeShipGold dist numPorts =
      ⌊(50000 + 100 * (dist : ℚ)) *
        (1 + ∑ i ∈ Finset.range numPorts, (1 / 4 : ℚ) * (9 / 10) ^ i)⌋)
    ∧ tradeShipGold 0 0 = 50000
    ∧ tradeShipGold 100 1 = 75000 := by
  have hbase : ∀ dist : ℕ, (⌊(50000 + 100 * (dist : ℚ))⌋ : ℚ) = 50000 + 100 * (dist : ℚ) := by
    intro dist
    rw [show (50000 + 100 * (dist : ℚ)) = ((50000 + 100 * (dist : ℤ) : ℤ) : ℚ) by push_cast; ring]
    rw [Int.floor_intCast]
  have hgen : ∀ dist numPorts, tradeShipGold dist numPorts =
      ⌊(50000 + 100 * (dist : ℚ)) *
        (1 + ∑ i ∈ Finset.range numPorts, (1 / 4 : ℚ) * (9 / 10) ^ i)⌋ := by
    intro dist numPorts
    simp only [tradeShipGold]
    rw [totalMultiplier_eq_sum, hbase]
  refine ⟨hgen, ?_, ?_⟩
  · rw [hgen]
    norm_num
  · rw [hgen]
    rw [show (1 + ∑ i ∈ Finset.range 1, (1 / 4 : ℚ) * (9 / 10) ^ i) = 5 / 4 by
      norm_num [Finset.sum_range_one]]
    norm_num

/-! ## Train stop handlers (`CityStopHandler`, `PortStopHandler`,
`FactoryStopHandler` in the source)

Players are identified by naturals; the gold balances of all players form a
ledger `ℕ → ℤ`.  `Player.addGold` adds to one balance. -/

/-- `Player.addGold(amount)` on a ledger of all players. -/
def addGold (gold : ℕ → ℤ) (p : ℕ) (amount : ℤ) : ℕ → ℤ :=
  fun q => if q = p then gold q + amount else gold q

/-- `CityStopHandler.onStop` (and the identical `PortStopHandler.onStop`):
`goldBonus = trainGold(isFriendly) * (level + 1)`; the station owner is paid
iff friendly, the train owner is always paid.  `isFriendly` is
`stationOwner.isFriendly(trainOwner)`, supplied by the surrounding game. -/
def cityStopOnStop (level : ℕ) (stationOwner trainOwner : ℕ) (isFriendly : Bool)
    (gold : ℕ → ℤ) : ℕ → ℤ :=
  let goldBonus := trainGold isFriendly * ((level : ℤ) + 1)
  let gold1 := if isFriendly then addGold gold stationOwner goldBonus else gold
  addGold gold1 trainOwner goldBonus

/-- `FactoryStopHandler.onStop`: same friendliness logic but
`goldBonus = trainGold(isFriendly)` with no level multiplier. -/
def factoryStopOnStop (stationOwner trainOwner : ℕ) (isFriendly : Bool)
    (gold : ℕ → ℤ) : ℕ → ℤ :=
  let goldBonus := trainGold isFriendly
  let gold1 := if isFriendly then addGold gold stationOwner goldBonus else gold
  addGold gold1 trainOwner goldBonus

theorem addGold_apply (gold : ℕ → ℤ) (p : ℕ) (amount : ℤ) (q : ℕ) :
    addGold gold p amount q = gold q + (if q = p then amount else 0) := by
  unfold addGold
  split <;> simp

/-- C2: at a City/Port stop the gold is `trainGold(isFriendly) * (level+1)`;
at a Factory stop it is flat `trainGold(isFriendly)`; in both cases the train
owner receives the amount, and the station owner receives it exactly when
friendly.  Stated per player `q` of the resulting ledger. -/
theorem claim_C2_trainStopGold (level : ℕ) (stationOwner trainOwner : ℕ)
    (isFriendly : Bool) (gold : ℕ → ℤ) (q : ℕ) :
    cityStopOnStop level stationOwner trainOwner isFriendly gold q =
      gold q + (if q = trainOwner then trainGold isFriendly * ((level : ℤ) + 1) else 0)
             + (if isFriendly ∧ q = stationOwner then
                  trainGold isFriendly * ((level : ℤ) + 1) else 0)
    ∧ factoryStopOnStop stationOwner trainOwner isFriendly gold q =
      gold q + (if q = trainOwner then trainGold isFriendly else 0)
             + (if isFriendly ∧ q = stationOwner then trainGold isFriendly else 0) := by
  constructor
  · simp only [cityStopOnStop, addGold_apply]
    cases isFriendly <;> (simp [addGold_apply]; try ring)
  · simp only [factoryStopOnStop, addGold_apply]
    cases isFriendly <;> (simp [addGold_apply]; try ring)

/-! ## Trade ship completion (`TradeShipExecution.complete` in the source) -/

/-- `TradeShipExecution.complete`: computes
`gold = tradeShipGold(tilesTraveled, shipOwnerPortCount)` (the port count of
the ship's current owner) and pays it out: if `wasCaptured`, only the current
ship owner receives `gold`; otherwise both the source port owner and the
destination port owner each receive `gold`. -/
def tradeShipComplete (wasCaptured : Bool) (tilesTraveled : ℕ)
    (shipOwner srcOwner dstOwner shipOwnerPortCount : ℕ)
    (gold : ℕ → ℤ) : ℕ → ℤ :=
  let g := tradeShipGold tilesTraveled shipOwnerPortCount
  if wasCaptured then addGold gold shipOwner g
  else addGold (addGold gold srcOwner g) dstOwner g

/-- C3: the completed-trade payout is
`tradeShipGold(tilesTraveled, current owner port count)`; a captured ship
pays only the current owner, an uncaptured ship pays both the source port
owner and the destination port owner the same full amount.  Stated per
player `q` of the resulting ledger. -/
theorem claim_C3_tradeShipPayout (wasCaptured : Bool) (tilesTraveled : ℕ)
    (shipOwner srcOwner dstOwner shipOwnerPortCount : ℕ) (gold : ℕ → ℤ) (q : ℕ) :
    tradeShipComplete wasCaptured tilesTraveled shipOwner srcOwner dstOwner
        shipOwnerPortCount gold q =
      gold q +
        (if wasCaptured then
          (if q = shipOwner then tradeShipGold tilesTraveled shipOwnerPortCount else 0)
        else
          (if q = srcOwner then tradeShipGold tilesTraveled shipOwnerPortCount else 0)
          + (if q = dstOwner then tradeShipGold tilesTraveled shipOwnerPortCount else 0)) := by
  simp only [tradeShipComplete]
  cases wasCaptured <;> (simp [addGold_apply]; try ring)

/-! ## Train spawning (`TrainExecution.init` / `createTrainUnits` in the
source) -/

/-- Result of `TrainExecution.init`: whether the execution stays active and
how many train units were built. -/
structure TrainInitResult where
  active : Bool
  unitsBuilt : ℕ
  deriving DecidableEq

/-- Unit count of `TrainExecution.createTrainUnits`: one engine unit, then
one cosmetic tail engine pushed to `cars`, then `numCars` carriage units. -/
def createTrainUnitsCount (numCars : ℕ) : ℕ :=
  1 + (1 + numCars)

/-- `TrainExecution.init`: asks the rail network for the station path; if it
has at most one station, deactivates without building.  Otherwise looks up
the oriented railroad between the first two stations (`getOrientedRailroad`,
external to the execution; `railroadExists` is its success) and deactivates
without building if absent.  Then `player.canBuild` (`canBuild`) may refuse,
again deactivating without building.  Otherwise `createTrainUnits` builds
`numCars + 2` units. -/
def trainExecutionInit (numCars : ℕ) (stationsPath : List ℕ)
    (railroadExists : Bool) (canBuild : Bool) : TrainInitResult :=
  if stationsPath.length ≤ 1 then ⟨false, 0⟩
  else if !railroadExists then ⟨false, 0⟩
  else if !canBuild then ⟨false, 0⟩
  else ⟨true, createTrainUnitsCount numCars⟩

/-- C4 counterexample: with a 2-station path but no oriented railroad
between them (`getOrientedRailroad` returns `null`), `init` deactivates and
builds 0 units, not `numCars + 2 = 7`: the claim's `otherwise it builds
exactly numCars+2 units` is false. -/
theorem claim_C4_counterexample :
    (trainExecutionInit 5 [0, 1] false true).unitsBuilt = 0
    ∧ ¬ ((trainExecutionInit 5 [0, 1] false true).unitsBuilt = 5 + 2)
    ∧ 2 ≤ ([0, 1] : List ℕ).length := by
  refine ⟨rfl, ?_, by decide⟩
  decide

/-- C4 (amended): if the station path has fewer than 2 stations the
execution deactivates with no units; with at least 2 stations, units are
built exactly when the oriented railroad exists and the build succeeds, and
then exactly `numCars + 2` of them; in every case at most `numCars + 2`
units are spawned. -/
theorem claim_C4_trainUnitCount (numCars : ℕ) (stationsPath : List ℕ)
    (railroadExists canBuild : Bool) :
    (trainExecutionInit numCars stationsPath railroadExists canBuild).unitsBuilt ≤ numCars + 2
    ∧ (trainExecutionInit numCars stationsPath railroadExists canBuild).active =
        (decide (2 ≤ stationsPath.length) && railroadExists && canBuild)
    ∧ (trainExecutionInit numCars stationsPath railroadExists canBuild).unitsBuilt =
        (if 2 ≤ stationsPath.length ∧ railroadExists = true ∧ canBuild = true
         then numCars + 2 else 0) := by
  simp only [trainExecutionInit, createTrainUnitsCount]
  by_cases h1 : stationsPath.length ≤ 1
  · have h2 : ¬ 2 ≤ stationsPath.length := by omega
    simp [h1, h2]
  · have h2 : 2 ≤ stationsPath.length := by omega
    cases railroadExists <;> cases canBuild <;> (simp [h1, h2]; try omega)

/-! ## Bidirectional A* (`SerialAStar` in the source)

Nodes are naturals.  The graph adapter mirrors `GraphAdapter<NodeType>`;
`position` is split into `posX`/`posY`.  The forward/backward g-score and
came-from `Map`s are total functions to `Option`; the `FastPriorityQueue`
open sets are modelled as lists from which `pollMin` extracts an element of
minimal f-score (the behaviour guaranteed by a priority queue keyed by
f-score).  Numeric scores are exact integers. -/

inductive PathFindResultType where
  | Pending
  | Completed
  | PathNotFound
  | NextTile
  deriving DecidableEq

/-- `GraphAdapter<NodeType>` over natural-number nodes. -/
structure GraphAdapter where
  neighbors : ℕ → List ℕ
  cost : ℕ → ℤ
  posX : ℕ → ℤ
  posY : ℕ → ℤ
  isTraversable : ℕ → ℕ → Bool

/-- The constructor-time fields of `SerialAStar` that never change. -/
structure AStarParams where
  dst : ℕ
  closestSource : ℕ
  iterations : ℕ
  directionChangePenalty : ℤ

/-- The mutable search state of `SerialAStar`. -/
structure SearchState where
  fwdOpen : List (ℕ × ℤ)
  bwdOpen : List (ℕ × ℤ)
  fwdCameFrom : ℕ → Option ℕ
  bwdCameFrom : ℕ → Option ℕ
  fwdGScore : ℕ → Option ℤ
  bwdGScore : ℕ → Option ℤ
  meetingPoint : Option ℕ
  completed : Bool
  maxTries : ℤ

/-- `SerialAStar.heuristic`: weighted Manhattan distance
`2 * (|dx| + |dy|)`. -/
def heuristic (g : GraphAdapter) (a b : ℕ) : ℤ :=
  2 * (|g.posX a - g.posX b| + |g.posY a - g.posY b|)

/-- `SerialAStar.getDirection`: the pair of coordinate signs of the step
(the source encodes it as the string `"sign dx,sign dy"`). -/
def getDirection (g : GraphAdapter) (a b : ℕ) : ℤ × ℤ :=
  ((g.posX b - g.posX a).sign, (g.posY b - g.posY a).sign)

/-- Modelled from the spec: `FastPriorityQueue.poll` of the external queue
library returns (and removes) an element with minimal key, here the minimal
f-score; ties go to the earliest-added element. -/
def pollMin : List (ℕ × ℤ) → Option ((ℕ × ℤ) × List (ℕ × ℤ))
  | [] => none
  | x :: xs =>
    match pollMin xs with
    | none => some (x, [])
    | some (m, rest) => if x.2 ≤ m.2 then some (x, xs) else some (m, x :: rest)

/-- One neighbour step of `SerialAStar.expandNode`. -/
def expandStep (g : GraphAdapter) (p : AStarParams) (current : ℕ)
    (isForward : Bool) (st : SearchState) (neighbor : ℕ) : SearchState :=
  if neighbor ≠ (if isForward then p.dst else p.closestSource)
      ∧ g.isTraversable current neighbor = false then st
  else
    let gScore := if isForward then st.fwdGScore else st.bwdGScore
    let cameFrom := if isForward then st.fwdCameFrom else st.bwdCameFrom
    let tentativeGScore := (gScore current).getD 0 + g.cost neighbor
    let penalty : ℤ :=
      if 0 < p.directionChangePenalty then
        match cameFrom current with
        | some prev =>
          if getDirection g prev current ≠ getDirection g current neighbor
          then p.directionChangePenalty else 0
        | none => 0
      else 0
    let totalG := tentativeGScore + penalty
    let better := match gScore neighbor with
      | none => true
      | some gn => decide (totalG < gn)
    if better then
      let fScore := totalG +
        heuristic g neighbor (if isForward then p.dst else p.closestSource)
      if isForward then
        { st with
          fwdCameFrom := fun x => if x = neighbor then some current else st.fwdCameFrom x,
          fwdGScore := fun x => if x = neighbor then some totalG else st.fwdGScore x,
          fwdOpen := st.fwdOpen ++ [(neighbor, fScore)] }
      else
        { st with
          bwdCameFrom := fun x => if x = neighbor then some current else st.bwdCameFrom x,
          bwdGScore := fun x => if x = neighbor then some totalG else st.bwdGScore x,
          bwdOpen := st.bwdOpen ++ [(neighbor, fScore)] }
    else st

/-- `SerialAStar.expandNode`: processes every neighbour of `current` in
order. -/
def expandNode (g : GraphAdapter) (p : AStarParams) (current : ℕ)
    (isForward : Bool) (st : SearchState) : SearchState :=
  (g.neighbors current).foldl (expandStep g p current isForward) st

/-- The `while` loop of `SerialAStar.compute`, recursing on the remaining
value of the call-local `iterations` counter. -/
def computeLoop (g : GraphAdapter) (p : AStarParams)
    (iter : ℕ) (st : SearchState) : PathFindResultType × SearchState :=
    if st.fwdOpen = [] ∨ st.bwdOpen = [] then
      (if st.completed then .Completed else .PathNotFound, st)
    else
      match iter with
      | 0 => (if st.maxTries ≤ 0 then .PathNotFound else .Pending, st)
      | 1 => (if st.maxTries ≤ 0 then .PathNotFound else .Pending, st)
      | k + 2 =>
        match pollMin st.fwdOpen with
        | none => (.PathNotFound, st)
        | some (fwdCurrent, fwdRest) =>
          let st1 := { st with fwdOpen := fwdRest }
          if (st1.bwdGScore fwdCurrent.1).isSome then
            (.Completed,
              { st1 with meetingPoint := some fwdCurrent.1, completed := true })
          else
            let st2 := expandNode g p fwdCurrent.1 true st1
            match pollMin st2.bwdOpen with
            | none => (.PathNotFound, st2)
            | some (bwdCurrent, bwdRest) =>
              let st3 := { st2 with bwdOpen := bwdRest }
              if (st3.fwdGScore bwdCurrent.1).isSome then
                (.Completed,
                  { st3 with meetingPoint := some bwdCurrent.1, completed := true })
              else
                computeLoop g p (k + 1) (expandNode g p bwdCurrent.1 false st3)

/-- `SerialAStar.compute`: returns `Completed` immediately when already
completed; otherwise decrements `maxTries` and runs the search loop with the
fixed per-call iteration budget. -/
def compute (g : GraphAdapter) (p : AStarParams) (st : SearchState) :
    PathFindResultType × SearchState :=
  if st.completed then (.Completed, st)
  else computeLoop g p p.iterations { st with maxTries := st.maxTries - 1 }

/-- `SerialAStar.findClosestSource`: `reduce` over the source list keeping
the source of strictly smaller heuristic distance to `tile`. -/
def findClosestSource (g : GraphAdapter) (sources : List ℕ) (tile : ℕ) : ℕ :=
  match sources with
  | [] => 0
  | s :: rest =>
    rest.foldl (fun closest source =>
      if heuristic g tile source < heuristic g tile closest then source else closest) s

/-- The `SerialAStar` constructor: seeds the forward open set and g-scores
with the sources and the backward ones with the destination. -/
def initState (g : GraphAdapter) (sources : List ℕ) (dst : ℕ) (maxTries : ℤ) :
    SearchState :=
  let closest := findClosestSource g sources dst
  { fwdOpen := sources.map (fun s => (s, heuristic g s dst)),
    bwdOpen := [(dst, heuristic g dst closest)],
    fwdCameFrom := fun _ => none,
    bwdCameFrom := fun _ => none,
    fwdGScore := fun x => if x ∈ sources then some 0 else none,
    bwdGScore := fun x => if x = dst then some 0 else none,
    meetingPoint := none,
    completed := false,
    maxTries := maxTries }

theorem pollMin_isSome (x : ℕ × ℤ) (xs : List (ℕ × ℤ)) :
    (pollMin (x :: xs)).isSome := by
  cases h : pollMin xs with
  | none => simp [pollMin, h]
  | some m => simp only [pollMin, h]; split <;> simp

theorem expandStep_fields (g : GraphAdapter) (p : AStarParams) (current : ℕ)
    (isForward : Bool) (st : SearchState) (n : ℕ) :
    (expandStep g p current isForward st n).completed = st.completed
    ∧ (expandStep g p current isForward st n).maxTries = st.maxTries
    ∧ (expandStep g p current isForward st n).meetingPoint = st.meetingPoint := by
  simp only [expandStep]
  repeat' split
  all_goals exact ⟨rfl, rfl, rfl⟩

theorem expandStep_fwd_frame (g : GraphAdapter) (p : AStarParams) (current : ℕ)
    (st : SearchState) (n : ℕ) :
    (expandStep g p current true st n).bwdOpen = st.bwdOpen
    ∧ (expandStep g p current true st n).bwdGScore = st.bwdGScore := by
  simp only [expandStep]
  repeat' split
  all_goals first
  | exact ⟨rfl, rfl⟩
  | simp_all

theorem expandNode_fields (g : GraphAdapter) (p : AStarParams) (current : ℕ)
    (isForward : Bool) (st : SearchState) :
    (expandNode g p current isForward st).completed = st.completed
    ∧ (expandNode g p current isForward st).maxTries = st.maxTries
    ∧ (expandNode g p current isForward st).meetingPoint = st.meetingPoint := by
  unfold expandNode
  induction g.neighbors current generalizing st with
  | nil => exact ⟨rfl, rfl, rfl⟩
  | cons head tail ih =>
    simp only [List.foldl_cons]
    obtain ⟨h1, h2, h3⟩ := ih (expandStep g p current isForward st head)
    obtain ⟨g1, g2, g3⟩ := expandStep_fields g p current isForward st head
    exact ⟨h1.trans g1, h2.trans g2, h3.trans g3⟩

theorem expandNode_fwd_frame (g : GraphAdapter) (p : AStarParams) (current : ℕ)
    (st : SearchState) :
    (expandNode g p current true st).bwdOpen = st.bwdOpen
    ∧ (expandNode g p current true st).bwdGScore = st.bwdGScore := by
  unfold expandNode
  induction g.neighbors current generalizing st with
  | nil => exact ⟨rfl, rfl⟩
  | cons head tail ih =>
    simp only [List.foldl_cons]
    obtain ⟨h1, h2⟩ := ih (expandStep g p current true st head)
    obtain ⟨g1, g2⟩ := expandStep_fwd_frame g p current st head
    exact ⟨h1.trans g1, h2.trans g2⟩

/-- What each `SerialAStar.compute` return value guarantees about the final
search state: `Completed` marks the search complete with a recorded meeting
point that has a g-score in an opposite-direction map; `Pending` leaves an
incomplete search with retry tries remaining and both open sets non-empty;
`PathNotFound` leaves an incomplete search with either the retry budget
exhausted or an open set emptied out; `NextTile` is never returned. -/
def LoopSpec : PathFindResultType × SearchState → Prop
  | (.Completed, st2) => st2.completed = true ∧ ∃ m, st2.meetingPoint = some m ∧
      ((st2.fwdGScore m).isSome ∨ (st2.bwdGScore m).isSome)
  | (.Pending, st2) => st2.completed = false ∧ 0 < st2.maxTries
      ∧ st2.fwdOpen ≠ [] ∧ st2.bwdOpen ≠ []
  | (.PathNotFound, st2) => st2.completed = false
      ∧ (st2.maxTries ≤ 0 ∨ st2.fwdOpen = [] ∨ st2.bwdOpen = [])
  | (.NextTile, _) => False

theorem computeLoop_spec (g : GraphAdapter) (p : AStarParams) :
    ∀ iter st, st.completed = false → LoopSpec (computeLoop g p iter st) := by
  intro iter
  induction iter using Nat.strong_induction_on with
  | _ iter ih =>
    intro st hst
    rw [computeLoop.eq_def]
    by_cases hempty : st.fwdOpen = [] ∨ st.bwdOpen = []
    · rw [if_pos hempty, hst]
      simpa [LoopSpec, hst] using Or.inr hempty
    · rw [if_neg hempty]
      push_neg at hempty
      match iter with
      | 0 =>
        by_cases htries : st.maxTries ≤ 0
        · simp [htries, LoopSpec, hst]
        · simp only [if_neg htries]
          exact ⟨hst, by omega, hempty.1, hempty.2⟩
      | 1 =>
        by_cases htries : st.maxTries ≤ 0
        · simp [htries, LoopSpec, hst]
        · simp only [if_neg htries]
          exact ⟨hst, by omega, hempty.1, hempty.2⟩
      | k + 2 =>
        obtain ⟨⟨fc, fr⟩, hpoll1⟩ :
            ∃ y, pollMin st.fwdOpen = some y := by
          cases hfo : st.fwdOpen with
          | nil => exact absurd hfo hempty.1
          | cons a as => exact Option.isSome_iff_exists.mp (pollMin_isSome a as)
        rw [hpoll1]
        dsimp only
        by_cases hm1 : (st.bwdGScore fc.1).isSome
        · rw [if_pos hm1]
          exact ⟨rfl, fc.1, rfl, Or.inr hm1⟩
        · rw [if_neg hm1]
          set st2 := expandNode g p fc.1 true { st with fwdOpen := fr } with hst2
          have hfr2 : st2.bwdOpen = st.bwdOpen :=
            (expandNode_fwd_frame g p fc.1 { st with fwdOpen := fr }).1
          obtain ⟨⟨bc, br⟩, hpoll2⟩ : ∃ y, pollMin st2.bwdOpen = some y := by
            rw [hfr2]
            cases hbo : st.bwdOpen with
            | nil => exact absurd hbo hempty.2
            | cons a as => exact Option.isSome_iff_exists.mp (pollMin_isSome a as)
          rw [hpoll2]
          dsimp only
          by_cases hm2 : (st2.fwdGScore bc.1).isSome
          · rw [if_pos hm2]
            exact ⟨rfl, bc.1, rfl, Or.inl hm2⟩
          · rw [if_neg hm2]
            have hc4 : (expandNode g p bc.1 false { st2 with bwdOpen := br }).completed = false := by
              rw [(expandNode_fields g p bc.1 false _).1]
              show st2.completed = false
              rw [hst2, (expandNode_fields g p fc.1 true _).1]
              exact hst
            exact ih (k + 1) (by omega) _ hc4

/-- The specification relating the initial state, return value and final
state of a `SerialAStar.compute` call (amended C5): the `LoopSpec`
guarantees, except that the meeting-point witness is only claimed when the
search was not already complete before the call. -/
def PathResultSpec (st : SearchState) : PathFindResultType × SearchState → Prop
  | (.Completed, st2) => st2.completed = true ∧
      (st.completed = false → ∃ m, st2.meetingPoint = some m ∧
        ((st2.fwdGScore m).isSome ∨ (st2.bwdGScore m).isSome))
  | (.Pending, st2) => st2.completed = false ∧ 0 < st2.maxTries
      ∧ st2.fwdOpen ≠ [] ∧ st2.bwdOpen ≠ []
  | (.PathNotFound, st2) => st2.completed = false
      ∧ (st2.maxTries ≤ 0 ∨ st2.fwdOpen = [] ∨ st2.bwdOpen = [])
  | (.NextTile, _) => False

/-- The concrete graph for the C5 counterexample: node 0 at the origin,
node 1 at x-coordinate 5, no edges at all. -/
def edgelessGraph : GraphAdapter :=
  { neighbors := fun _ => [],
    cost := fun _ => 1,
    posX := fun n => if n = 1 then 5 else 0,
    posY := fun _ => 0,
    isTraversable := fun _ _ => true }

/-- Search parameters from node 0 to node 1 with a budget of 5 iterations
per call and 3 tries. -/
def edgelessParams : AStarParams :=
  { dst := 1, closestSource := 0, iterations := 5, directionChangePenalty := 0 }

/-- The constructor state of `SerialAStar(0, 1, 5, 3, edgelessGraph)`. -/
def edgelessStart : SearchState := initState edgelessGraph [0] 1 3

/-- C5 counterexample: on a graph where the destination is unreachable the
very first `compute` call returns `PathNotFound` by emptying both open sets,
with `maxTries = 2` still remaining and the iteration budget not exhausted —
refuting the claim that `PathNotFound` is returned exactly when the budget
is exhausted across `maxTries` resumptions. -/
theorem claim_C5_counterexample :
    (compute edgelessGraph edgelessParams edgelessStart).1 = .PathNotFound
    ∧ (compute edgelessGraph edgelessParams edgelessStart).2.maxTries = 2
    ∧ ¬ ((compute edgelessGraph edgelessParams edgelessStart).2.maxTries ≤ 0) := by
  refine ⟨rfl, rfl, by decide⟩

/-- C5 (amended): every `compute` call satisfies `PathResultSpec`:
`Completed` is returned iff the search is (now) marked complete — either it
already was, or this call popped a node with a g-score in the opposite
direction's map and recorded it as the meeting point; `Pending` is returned
only with the search incomplete, tries remaining and both open sets
non-empty (the iteration budget ran out mid-search); `PathNotFound` is
returned only with the search incomplete and either no tries remaining or
an open set exhausted (no path exists); `NextTile` is never returned. -/
theorem claim_C5_computeResults (g : GraphAdapter) (p : AStarParams)
    (st : SearchState) : PathResultSpec st (compute g p st) := by
  cases hst : st.completed with
  | true =>
    have hc : compute g p st = (.Completed, st) := by
      unfold compute
      rw [hst]
      simp
    rw [hc]
    exact ⟨hst, fun h => by rw [hst] at h; cases h⟩
  | false =>
    have hc : compute g p st =
        computeLoop g p p.iterations { st with maxTries := st.maxTries - 1 } := by
      unfold compute
      rw [hst]
      simp
    rw [hc]
    have h := computeLoop_spec g p p.iterations { st with maxTries := st.maxTries - 1 } hst
    rcases hout : computeLoop g p p.iterations { st with maxTries := st.maxTries - 1 } with ⟨r, st2⟩
    rw [hout] at h
    cases r with
    | Completed => exact ⟨h.1, fun _ => h.2⟩
    | Pending => exact h
    | PathNotFound => exact h
    | NextTile => exact h

/-- C9: once completed, `compute` returns `Completed` immediately and leaves
every piece of search state (including the retry budget) untouched. -/
theorem claim_C9_compute_idempotent_after_completed (g : GraphAdapter)
    (p : AStarParams) (st : SearchState) (h : st.completed = true) :
    compute g p st = (.Completed, st) := by
  unfold compute
  rw [h]
  simp

/-- An already-completed concrete search state. -/
def completedStart : SearchState := { edgelessStart with completed := true }

/-- Witness for C9 at a concrete completed state. -/
theorem claim_C9_witness :
    completedStart.completed = true
    ∧ compute edgelessGraph edgelessParams completedStart = (.Completed, completedStart) :=
  ⟨rfl, claim_C9_compute_idempotent_after_completed edgelessGraph edgelessParams
    completedStart rfl⟩

/-! ## Rail network (`RailNetworkImpl`, `StationManagerImpl`,
`TrainStation`, `Cluster` in the source)

Stations are identified by naturals (object identity of the `TrainStation`
wrappers).  `Cluster` objects are identified by allocation order
(`nextCluster` plays the role of `new Cluster()` identity); a station's
`cluster` field is `clusterOf`, a cluster's `stations` set is
`clusterSets`.  Railroads live in one global list of `(from, to)` endpoint
pairs; `connect` registers a railroad on both endpoint stations and
`Railroad.delete` (external, modelled from the spec) unregisters it from
both, so each station's incident set is the restriction of this list. -/

/-- `RailNetworkImpl.maxConnectionDistance`: 4. -/
def maxConnectionDistance : ℕ := 4

/-- The whole mutable state of the rail network. -/
structure RailState where
  stations : List ℕ
  rails : List (ℕ × ℕ)
  clusterOf : ℕ → Option ℕ
  clusterSets : ℕ → List ℕ
  nextCluster : ℕ

/-- The initial network: no stations, no railroads, no clusters. -/
def emptyRailState : RailState :=
  { stations := [], rails := [],
    clusterOf := fun _ => none, clusterSets := fun _ => [], nextCluster := 0 }

/-- JavaScript `Set.add` on an insertion-ordered set. -/
def insertIfAbsent (l : List ℕ) (s : ℕ) : List ℕ :=
  if s ∈ l then l else l ++ [s]

/-- `TrainStation.neighbors`: the other endpoints of the incident
railroads. -/
def neighborsOf (st : RailState) (u : ℕ) : List ℕ :=
  st.rails.filterMap fun r =>
    if r.1 = u then some r.2 else if r.2 = u then some r.1 else none

/-- `Cluster.addStation`: adds the station to the cluster's set and points
the station's `cluster` field at it. -/
def clusterAddStation (st : RailState) (c s : ℕ) : RailState :=
  { st with
    clusterSets := fun x =>
      if x = c then insertIfAbsent (st.clusterSets c) s else st.clusterSets x,
    clusterOf := fun x => if x = s then some c else st.clusterOf x }

/-- A fuel bound under which every BFS queue in this model provably
empties: total queue insertions are at most `1 + Σ degrees`. -/
def bfsFuel (st : RailState) : ℕ :=
  (1 + 2 * st.rails.length) * (1 + st.rails.length) + 1

/-- The BFS queue loop of `RailNetworkImpl.distanceFrom`: pops `(station,
distance)` pairs, skips visited stations, stops expanding at
`maxDistance`, and returns `distance + 1` as soon as `dest` shows up among
the neighbours of a popped station.  The queue processing is structurally
recursive on an explicit fuel; `distanceFrom` supplies `bfsFuel`, which is
enough for the queue to empty. -/
def distanceFromAux (st : RailState) (dest : ℕ) (maxDistance : ℕ)
    (fuel : ℕ) (queue : List (ℕ × ℕ)) (visited : List ℕ) : ℤ :=
  match fuel, queue with
  | 0, _ => -1
  | _ + 1, [] => -1
  | f + 1, (s, d) :: rest =>
    if s ∈ visited then distanceFromAux st dest maxDistance f rest visited
    else
      if maxDistance ≤ d then
        distanceFromAux st dest maxDistance f rest (s :: visited)
      else
        let nbrs := neighborsOf st s
        if dest ∈ nbrs then (d : ℤ) + 1
        else
          distanceFromAux st dest maxDistance f
            (rest ++ (nbrs.filter fun n => decide (¬ n ∈ s :: visited)).map fun n => (n, d + 1))
            (s :: visited)

/-- `RailNetworkImpl.distanceFrom`: BFS hop distance from `start` to
`dest`, `-1` when not found within `maxDistance`. -/
def distanceFrom (st : RailState) (start dest : ℕ) (maxDistance : ℕ) : ℤ :=
  if start = dest then 0
  else distanceFromAux st dest maxDistance (bfsFuel st) [(start, 0)] []

/-- `RailNetworkImpl.connect`: asks the path service for a tile path
between the two stations (`pathLen from to` — an oracle for the external
terrain pathfinder `findTilePath`, giving the returned path's length, `0`
for no path) and creates the railroad, registered on both stations, iff
`0 < length < railroadMaxSize`. -/
def connect (pathLen : ℕ → ℕ → ℕ) (st : RailState) (a b : ℕ) :
    RailState × Bool :=
  if 0 < pathLen a b ∧ pathLen a b < railroadMaxSize then
    ({ st with rails := st.rails ++ [(a, b)] }, true)
  else (st, false)

/-- One candidate step of `RailNetworkImpl.connectToNearbyStations`:
`cand = (unit, distSquared)` as produced by `game.nearbyUnits`.  Skips the
station itself and unregistered units, computes the capped BFS hop
distance, requires the candidate to have a cluster, and connects when the
pair is not already within `maxConnectionDistance` hops and lies beyond
`trainStationMinRange`; on success the station is absorbed into the
neighbour's cluster, which is recorded as edited. -/
def connectCandidate (pathLen : ℕ → ℕ → ℕ) (s : ℕ)
    (acc : RailState × List ℕ) (cand : ℕ × ℕ) : RailState × List ℕ :=
  if cand.1 = s then acc
  else if ¬ cand.1 ∈ acc.1.stations then acc
  else
    let dist := distanceFrom acc.1 cand.1 s maxConnectionDistance
    match acc.1.clusterOf cand.1 with
    | none => acc
    | some c =>
      if ((maxConnectionDistance : ℤ) < dist ∨ dist = -1)
          ∧ trainStationMinRange ^ 2 < cand.2 then
        match connect pathLen acc.1 s cand.1 with
        | (st2, true) => (clusterAddStation st2 c s, insertIfAbsent acc.2 c)
        | (st2, false) => (st2, acc.2)
      else acc

/-- Insertion step of the ascending `distSquared` sort. -/
def insertByDist (x : ℕ × ℕ) : List (ℕ × ℕ) → List (ℕ × ℕ)
  | [] => [x]
  | y :: ys => if x.2 ≤ y.2 then x :: y :: ys else y :: insertByDist x ys

/-- The candidate sort of `connectToNearbyStations`
(`neighbors.sort((a, b) => a.distSquared - b.distSquared)`). -/
def sortByDist : List (ℕ × ℕ) → List (ℕ × ℕ)
  | [] => []
  | x :: xs => insertByDist x (sortByDist xs)

/-- `RailNetworkImpl.mergeClusters`: allocates a fresh `Cluster` and merges
every edited cluster's members into it, repointing each station. -/
def mergeClusters (st : RailState) (edited : List ℕ) : RailState :=
  let m := st.nextCluster
  let st1 : RailState :=
    { st with
      clusterSets := fun x => if x = m then [] else st.clusterSets x,
      nextCluster := m + 1 }
  edited.foldl
    (fun acc c => (acc.clusterSets c).foldl (fun a t => clusterAddStation a m t) acc)
    st1

/-- Allocation of a `new Cluster()` holding the given stations
(`addStations`). -/
def newClusterWith (st : RailState) (members : List ℕ) : RailState :=
  let c := st.nextCluster
  let st1 : RailState :=
    { st with
      clusterSets := fun x => if x = c then [] else st.clusterSets x,
      nextCluster := c + 1 }
  members.foldl (fun a t => clusterAddStation a c t) st1

/-- `RailNetworkImpl.connectToNearbyStations`: processes the nearby
candidates in ascending distance order; afterwards merges the edited
clusters if more than one, or creates a brand-new singleton cluster if
none. -/
def connectToNearbyStations (pathLen : ℕ → ℕ → ℕ) (st : RailState) (s : ℕ)
    (cands : List (ℕ × ℕ)) : RailState :=
  let res := (sortByDist cands).foldl (connectCandidate pathLen s) (st, [])
  if 1 < res.2.length then mergeClusters res.1 res.2
  else if res.2.length = 0 then newClusterWith res.1 [s]
  else res.1

/-- `RailNetworkImpl.connectStation`: registers the station with the
`StationManager` and connects it to nearby stations.  The surrounding game
constructs the `TrainStation` wrapper fresh for a newly built unit, so `s`
enters with a `null` cluster field and no incident railroads. -/
def connectStation (pathLen : ℕ → ℕ → ℕ) (st : RailState) (s : ℕ)
    (cands : List (ℕ × ℕ)) : RailState :=
  connectToNearbyStations pathLen
    { st with stations := insertIfAbsent st.stations s } s cands

/-- `RailNetworkImpl.deleteCluster`: null out every member's cluster field
and clear the set. -/
def deleteCluster (st : RailState) (c : ℕ) : RailState :=
  let st1 := (st.clusterSets c).foldl
    (fun a t => { a with clusterOf := fun x => if x = t then none else a.clusterOf x }) st
  { st1 with clusterSets := fun x => if x = c then [] else st1.clusterSets x }

/-- `Cluster.removeStation`: removes the station from the set (the
station's own cluster field is left as is). -/
def clusterRemoveStation (st : RailState) (c t : ℕ) : RailState :=
  { st with
    clusterSets := fun x =>
      if x = c then (st.clusterSets c).filter (fun y => decide (y ≠ t))
      else st.clusterSets x }

/-- The BFS queue loop of `RailNetworkImpl.computeCluster` (visited-set
collection), structurally recursive on an explicit fuel; `bfsFuel`
suffices for the queue to empty. -/
def bfsVisit (adj : ℕ → List ℕ) (fuel : ℕ) (queue : List ℕ)
    (visited : List ℕ) : List ℕ :=
  match fuel, queue with
  | 0, _ => visited
  | _ + 1, [] => visited
  | f + 1, q :: rest =>
    if q ∈ visited then bfsVisit adj f rest visited
    else bfsVisit adj f (rest ++ (adj q).filter fun n => decide (¬ n ∈ visited)) (q :: visited)

/-- `RailNetworkImpl.computeCluster`: the stations BFS-reachable from
`start` over railroads. -/
def computeCluster (st : RailState) (start : ℕ) : List ℕ :=
  bfsVisit (neighborsOf st) (bfsFuel st) [start] []

/-- `RailNetworkImpl.removeStation`: a no-op for unregistered units;
otherwise deletes all incident railroads from both endpoint sets
(`Railroad.delete`, modelled from the spec: railroads are registered on
both stations' incident sets and deleted from both), deletes the cluster
if the station was its only member, unregisters the station, then removes
it from its cluster (single neighbour) or recomputes the clusters of every
former neighbour by BFS (hub). -/
def removeStation (st : RailState) (u : ℕ) : RailState :=
  if ¬ u ∈ st.stations then st
  else
    let neighbors := neighborsOf st u
    let st1 : RailState :=
      { st with rails := st.rails.filter fun r => decide (r.1 ≠ u) && decide (r.2 ≠ u) }
    let st2 := match st1.clusterOf u with
      | some c => if (st1.clusterSets c).length = 1 then deleteCluster st1 c else st1
      | none => st1
    let st3 : RailState :=
      { st2 with stations := st2.stations.filter fun x => decide (x ≠ u) }
    match st3.clusterOf u with
    | none => st3
    | some c =>
      if neighbors.length = 1 then clusterRemoveStation st3 c u
      else if 1 < neighbors.length then
        neighbors.foldl (fun a n => newClusterWith a (computeCluster a n)) st3
      else st3

/-- C10: for a unit with no registered station, `removeStation` is a
no-op: the station set, all railroads and all clusters are unchanged. -/
theorem claim_C10_removeStation_noop (st : RailState) (u : ℕ)
    (h : ¬ u ∈ st.stations) : removeStation st u = st := by
  unfold removeStation
  rw [if_pos h]

/-- A small concrete network: stations 1 and 2 joined by one railroad in
cluster 0. -/
def pairRailState : RailState :=
  { stations := [1, 2], rails := [(2, 1)],
    clusterOf := fun x => if x = 1 ∨ x = 2 then some 0 else none,
    clusterSets := fun x => if x = 0 then [1, 2] else [],
    nextCluster := 1 }

/-- Witness for C10: unit 5 is not registered in `pairRailState`. -/
theorem claim_C10_witness :
    ¬ (5 : ℕ) ∈ pairRailState.stations
    ∧ removeStation pairRailState 5 = pairRailState :=
  ⟨by decide, claim_C10_removeStation_noop pairRailState 5 (by decide)⟩

theorem mem_neighborsOf (st : RailState) (u a : ℕ) :
    a ∈ neighborsOf st u ↔
      (u, a) ∈ st.rails ∨ ((a, u) ∈ st.rails ∧ a ≠ u) := by
  unfold neighborsOf
  rw [List.mem_filterMap]
  constructor
  · rintro ⟨r, hr, hout⟩
    by_cases h1 : r.1 = u
    · rw [if_pos h1] at hout
      have : r.2 = a := by injection hout
      left
      have : r = (u, a) := by
        cases r
        simp_all
      rwa [this] at hr
    · rw [if_neg h1] at hout
      by_cases h2 : r.2 = u
      · rw [if_pos h2] at hout
        have hra : r.1 = a := by injection hout
        right
        constructor
        · have : r = (a, u) := by
            cases r
            simp_all
          rwa [this] at hr
        · rw [← hra]; exact fun hau => h1 hau
      · rw [if_neg h2] at hout
        cases hout
  · rintro (h | ⟨h, hau⟩)
    · exact ⟨(u, a), h, by simp⟩
    · exact ⟨(a, u), h, by simp [hau]⟩

theorem distanceFromAux_hit (st : RailState) (dest maxD f s d : ℕ)
    (rest : List (ℕ × ℕ)) (visited : List ℕ) (h1 : ¬ s ∈ visited)
    (h2 : ¬ maxD ≤ d) (h3 : dest ∈ neighborsOf st s) :
    distanceFromAux st dest maxD (f + 1) ((s, d) :: rest) visited = (d : ℤ) + 1 := by
  simp only [distanceFromAux, if_neg h1, if_neg h2, if_pos h3]

theorem distanceFrom_adjacent (st : RailState) (n s : ℕ)
    (h : (s, n) ∈ st.rails ∨ (n, s) ∈ st.rails) (hne : n ≠ s) :
    distanceFrom st n s maxConnectionDistance = 1 := by
  have h3 : s ∈ neighborsOf st n := by
    rw [mem_neighborsOf]
    rcases h with h | h
    · exact Or.inr ⟨h, fun hsn => hne hsn.symm⟩
    · exact Or.inl h
  unfold distanceFrom
  rw [if_neg hne]
  show distanceFromAux st s maxConnectionDistance
    ((1 + 2 * st.rails.length) * (1 + st.rails.length) + 1) [(n, 0)] [] = 1
  rw [distanceFromAux_hit st s maxConnectionDistance _ n 0 [] []
    (by simp) (by norm_num [maxConnectionDistance]) h3]
  norm_num

/-- Number of railroads recorded between two stations, in either
orientation. -/
def railsBetween (st : RailState) (a b : ℕ) : ℕ :=
  st.rails.countP fun r => decide ((r.1 = a ∧ r.2 = b) ∨ (r.1 = b ∧ r.2 = a))

theorem foldl_rails_invariant {α : Type} (F : RailState → α → RailState)
    (hF : ∀ a x, (F a x).rails = a.rails) :
    ∀ (l : List α) (acc : RailState), (l.foldl F acc).rails = acc.rails := by
  intro l
  induction l with
  | nil => intro acc; rfl
  | cons x xs ih => intro acc; rw [List.foldl_cons, ih, hF]

theorem mergeClusters_rails (st : RailState) (edited : List ℕ) :
    (mergeClusters st edited).rails = st.rails := by
  unfold mergeClusters
  exact foldl_rails_invariant
    (fun acc c => (acc.clusterSets c).foldl
      (fun a t => clusterAddStation a st.nextCluster t) acc)
    (fun a c => foldl_rails_invariant
      (fun a t => clusterAddStation a st.nextCluster t) (fun _ _ => rfl) _ _)
    edited _

theorem newClusterWith_rails (st : RailState) (members : List ℕ) :
    (newClusterWith st members).rails = st.rails := by
  unfold newClusterWith
  exact foldl_rails_invariant
    (fun a t => clusterAddStation a st.nextCluster t) (fun _ _ => rfl) members _

theorem connectCandidate_preserves (pathLen : ℕ → ℕ → ℕ) (s : ℕ)
    (acc : RailState × List ℕ) (cand : ℕ × ℕ) (a b : ℕ)
    (h : (a, b) ∈ acc.1.rails ∨ (b, a) ∈ acc.1.rails) :
    ((a, b) ∈ (connectCandidate pathLen s acc cand).1.rails
      ∨ (b, a) ∈ (connectCandidate pathLen s acc cand).1.rails)
    ∧ railsBetween (connectCandidate pathLen s acc cand).1 a b
        = railsBetween acc.1 a b := by
  unfold connectCandidate
  by_cases h1 : cand.1 = s
  · rw [if_pos h1]; exact ⟨h, rfl⟩
  rw [if_neg h1]
  by_cases h2 : ¬ cand.1 ∈ acc.1.stations
  · rw [if_pos h2]; exact ⟨h, rfl⟩
  rw [if_neg h2]
  dsimp only
  rcases hc : acc.1.clusterOf cand.1 with _ | c
  · exact ⟨h, rfl⟩
  dsimp only
  by_cases hguard : ((maxConnectionDistance : ℤ) <
        distanceFrom acc.1 cand.1 s maxConnectionDistance
      ∨ distanceFrom acc.1 cand.1 s maxConnectionDistance = -1)
      ∧ trainStationMinRange ^ 2 < cand.2
  · rw [if_pos hguard]
    unfold connect
    by_cases hok : 0 < pathLen s cand.1 ∧ pathLen s cand.1 < railroadMaxSize
    · rw [if_pos hok]
      dsimp only
      have hnotpair : ¬ ((s = a ∧ cand.1 = b) ∨ (s = b ∧ cand.1 = a)) := by
        rintro (⟨hsa, hcb⟩ | ⟨hsb, hca⟩)
        · have hadj : (s, cand.1) ∈ acc.1.rails ∨ (cand.1, s) ∈ acc.1.rails := by
            rw [hsa, hcb]; exact h
          have := distanceFrom_adjacent acc.1 cand.1 s hadj h1
          rw [this] at hguard
          rcases hguard.1 with hbad | hbad
          · norm_num [maxConnectionDistance] at hbad
          · norm_num at hbad
        · have hadj : (s, cand.1) ∈ acc.1.rails ∨ (cand.1, s) ∈ acc.1.rails := by
            rw [hsb, hca]
            rcases h with h | h
            · exact Or.inr h
            · exact Or.inl h
          have := distanceFrom_adjacent acc.1 cand.1 s hadj h1
          rw [this] at hguard
          rcases hguard.1 with hbad | hbad
          · norm_num [maxConnectionDistance] at hbad
          · norm_num at hbad
      constructor
      · show (a, b) ∈ acc.1.rails ++ [(s, cand.1)] ∨ (b, a) ∈ acc.1.rails ++ [(s, cand.1)]
        rcases h with h | h
        · exact Or.inl (List.mem_append_left _ h)
        · exact Or.inr (List.mem_append_left _ h)
      · show (acc.1.rails ++ [(s, cand.1)]).countP _ = railsBetween acc.1 a b
        rw [List.countP_append]
        have : ([(s, cand.1)].countP fun r =>
            decide ((r.1 = a ∧ r.2 = b) ∨ (r.1 = b ∧ r.2 = a))) = 0 := by
          simp only [List.countP_cons, List.countP_nil]
          rw [if_neg (by simpa using hnotpair)]
        rw [this]
        rfl
    · rw [if_neg hok]; exact ⟨h, rfl⟩
  · rw [if_neg hguard]; exact ⟨h, rfl⟩

theorem connectLoop_preserves (pathLen : ℕ → ℕ → ℕ) (s a b : ℕ) :
    ∀ (l : List (ℕ × ℕ)) (acc : RailState × List ℕ),
      ((a, b) ∈ acc.1.rails ∨ (b, a) ∈ acc.1.rails) →
      ((a, b) ∈ (l.foldl (connectCandidate pathLen s) acc).1.rails
        ∨ (b, a) ∈ (l.foldl (connectCandidate pathLen s) acc).1.rails)
      ∧ railsBetween (l.foldl (connectCandidate pathLen s) acc).1 a b
          = railsBetween acc.1 a b := by
  intro l
  induction l with
  | nil => intro acc h; exact ⟨h, rfl⟩
  | cons x xs ih =>
    intro acc h
    rw [List.foldl_cons]
    obtain ⟨hmem, hcount⟩ := connectCandidate_preserves pathLen s acc x a b h
    obtain ⟨hm2, hc2⟩ := ih _ hmem
    exact ⟨hm2, hc2.trans hcount⟩

/-- C6: invoking `connectStation` again never creates a duplicate railroad
between an already-joined station pair: a railroad is only created towards
a candidate whose capped hop distance is `-1` or exceeds
`maxConnectionDistance`, and a directly-connected pair has hop distance 1,
so its railroad count (in both orientations) is unchanged. -/
theorem claim_C6_no_duplicate_railroads (pathLen : ℕ → ℕ → ℕ)
    (st : RailState) (s : ℕ) (cands : List (ℕ × ℕ)) (a b : ℕ)
    (h : (a, b) ∈ st.rails ∨ (b, a) ∈ st.rails) :
    railsBetween (connectStation pathLen st s cands) a b = railsBetween st a b := by
  unfold connectStation connectToNearbyStations
  dsimp only
  obtain ⟨hm, hc⟩ := connectLoop_preserves pathLen s a b (sortByDist cands)
    ({ st with stations := insertIfAbsent st.stations s }, []) h
  by_cases h1 : 1 < ((sortByDist cands).foldl (connectCandidate pathLen s)
      ({ st with stations := insertIfAbsent st.stations s }, [])).2.length
  · rw [if_pos h1]
    unfold railsBetween
    rw [mergeClusters_rails]
    exact hc
  · rw [if_neg h1]
    by_cases h0 : ((sortByDist cands).foldl (connectCandidate pathLen s)
        ({ st with stations := insertIfAbsent st.stations s }, [])).2.length = 0
    · rw [if_pos h0]
      unfold railsBetween
      rw [newClusterWith_rails]
      exact hc
    · rw [if_neg h0]
      exact hc

/-- Witness for C6: stations 2 and 1 of `pairRailState` are already joined;
reconnecting station 2 with candidate 1 leaves exactly one railroad
between them. -/
theorem claim_C6_witness :
    ((2, 1) ∈ pairRailState.rails ∨ (1, 2) ∈ pairRailState.rails)
    ∧ railsBetween (connectStation (fun _ _ => 20) pairRailState 2 [(1, 226)]) 2 1
        = railsBetween pairRailState 2 1 :=
  ⟨by decide,
    claim_C6_no_duplicate_railroads (fun _ _ => 20) pairRailState 2 [(1, 226)] 2 1
      (by decide)⟩

/-! ## The cluster partition invariant (C1) -/

/-- The state after the operation sequence
`connectStation(1, no candidates)`, `connectStation(2, candidate 1)`,
`connectStation(3, no candidates)`, `connectStation(2, candidate 3)` —
the last call re-connects the already-connected station 2 to the far-away
station 3.  Both candidate distances squared are 226 (beyond
`trainStationMinRange² = 225`), every tile path has length 20. -/
def breakState : RailState :=
  connectStation (fun _ _ => 20)
    (connectStation (fun _ _ => 20)
      (connectStation (fun _ _ => 20)
        (connectStation (fun _ _ => 20) emptyRailState 1 [])
        2 [(1, 226)])
      3 [])
    2 [(3, 226)]

/-- C1 counterexample: after the above sequence the partition is broken:
station 2 sits in the member sets of two distinct clusters that are both
still in use (cluster 0 is the cluster of station 1, cluster 1 that of
stations 2 and 3), and the railroad joining stations 2 and 1 has its
endpoints in different clusters. -/
theorem claim_C1_counterexample :
    (2, 1) ∈ breakState.rails
    ∧ breakState.clusterOf 1 = some 0
    ∧ breakState.clusterOf 2 = some 1
    ∧ ¬ breakState.clusterOf 2 = breakState.clusterOf 1
    ∧ breakState.clusterOf 3 = some 1
    ∧ 2 ∈ breakState.clusterSets 0
    ∧ 2 ∈ breakState.clusterSets 1
    ∧ 1 ∈ breakState.clusterSets 0
    ∧ 2 ∈ breakState.stations ∧ 1 ∈ breakState.stations := by
  decide

/-- Two stations joined by a railroad (in either orientation). -/
def adjacent (st : RailState) (a b : ℕ) : Prop :=
  (a, b) ∈ st.rails ∨ (b, a) ∈ st.rails

/-- Connectivity through railroads. -/
def Reach (st : RailState) : ℕ → ℕ → Prop :=
  Relation.ReflTransGen (adjacent st)

/-- A station identity that has never been used: not registered, null
cluster field, and in no allocated cluster's member set (cluster ids in use
are below `nextCluster`).  This holds for the fresh `TrainStation` object of
a newly built unit. -/
def freshId (st : RailState) (s : ℕ) : Prop :=
  ¬ s ∈ st.stations ∧ st.clusterOf s = none
  ∧ ∀ c < st.nextCluster, ¬ s ∈ st.clusterSets c

/-- The consistency invariant tying stations, railroads, cluster pointers
and cluster member sets together.  `clusters in use` are the values of the
`clusterOf` field of registered stations. -/
structure Inv (st : RailState) : Prop where
  ptr_some : ∀ s ∈ st.stations, ∃ c, st.clusterOf s = some c
  members_iff : ∀ c, (∃ s ∈ st.stations, st.clusterOf s = some c) →
    ∀ t, t ∈ st.clusterSets c ↔ (t ∈ st.stations ∧ st.clusterOf t = some c)
  rails_reg : ∀ r ∈ st.rails, r.1 ∈ st.stations ∧ r.2 ∈ st.stations ∧ r.1 ≠ r.2
  ptr_reach : ∀ a ∈ st.stations, ∀ b ∈ st.stations,
    (st.clusterOf a = st.clusterOf b ↔ Reach st a b)
  ptr_lt : ∀ s c, st.clusterOf s = some c → c < st.nextCluster
  members_nodup : ∀ c, (st.clusterSets c).Nodup

theorem adjacent_symm (st : RailState) {a b : ℕ} (h : adjacent st a b) :
    adjacent st b a := h.symm

theorem reach_symm (st : RailState) {a b : ℕ} (h : Reach st a b) :
    Reach st b a := by
  induction h with
  | refl => exact Relation.ReflTransGen.refl
  | tail _ hbc ih => exact Relation.ReflTransGen.head hbc.symm ih

theorem mem_insertIfAbsent (l : List ℕ) (s x : ℕ) :
    x ∈ insertIfAbsent l s ↔ x ∈ l ∨ x = s := by
  unfold insertIfAbsent
  split
  · rename_i hs
    constructor
    · exact Or.inl
    · rintro (h | rfl)
      · exact h
      · exact hs
  · simp

theorem nodup_insertIfAbsent (l : List ℕ) (s : ℕ) (h : l.Nodup) :
    (insertIfAbsent l s).Nodup := by
  unfold insertIfAbsent
  split
  · exact h
  · rename_i hs
    simp [List.nodup_append, h, hs]

theorem clusterAddStation_clusterOf (st : RailState) (c s x : ℕ) :
    (clusterAddStation st c s).clusterOf x =
      if x = s then some c else st.clusterOf x := rfl

theorem clusterAddStation_clusterSets (st : RailState) (c s x : ℕ) :
    (clusterAddStation st c s).clusterSets x =
      if x = c then insertIfAbsent (st.clusterSets c) s else st.clusterSets x := rfl

/-! Characterization of a fold of `clusterAddStation` over one cluster id
(the body of `Cluster.addStations` / `Cluster.merge`). -/

theorem foldAdd_frame (c : ℕ) : ∀ (l : List ℕ) (a : RailState),
    (l.foldl (fun a t => clusterAddStation a c t) a).stations = a.stations
    ∧ (l.foldl (fun a t => clusterAddStation a c t) a).rails = a.rails
    ∧ (l.foldl (fun a t => clusterAddStation a c t) a).nextCluster = a.nextCluster := by
  intro l
  induction l with
  | nil => exact fun a => ⟨rfl, rfl, rfl⟩
  | cons hd tl ih =>
    intro a
    rw [List.foldl_cons]
    exact ih (clusterAddStation a c hd)

theorem foldAdd_clusterOf (c : ℕ) : ∀ (l : List ℕ) (a : RailState) (x : ℕ),
    (l.foldl (fun a t => clusterAddStation a c t) a).clusterOf x =
      if x ∈ l then some c else a.clusterOf x := by
  intro l
  induction l with
  | nil => simp
  | cons hd tl ih =>
    intro a x
    rw [List.foldl_cons, ih]
    by_cases hx : x ∈ tl
    · rw [if_pos hx, if_pos (List.mem_cons_of_mem _ hx)]
    · rw [if_neg hx, clusterAddStation_clusterOf]
      by_cases hxh : x = hd
      · rw [if_pos hxh, if_pos (by rw [hxh]; exact List.mem_cons_self hd tl)]
      · rw [if_neg hxh, if_neg (by simp [hxh, hx])]

theorem foldAdd_sets_other (c c2 : ℕ) (hne : c2 ≠ c) :
    ∀ (l : List ℕ) (a : RailState),
      (l.foldl (fun a t => clusterAddStation a c t) a).clusterSets c2
        = a.clusterSets c2 := by
  intro l
  induction l with
  | nil => exact fun a => rfl
  | cons hd tl ih =>
    intro a
    rw [List.foldl_cons, ih, clusterAddStation_clusterSets, if_neg hne]

theorem foldAdd_sets_mem (c : ℕ) : ∀ (l : List ℕ) (a : RailState) (y : ℕ),
    (y ∈ (l.foldl (fun a t => clusterAddStation a c t) a).clusterSets c
      ↔ y ∈ a.clusterSets c ∨ y ∈ l) := by
  intro l
  induction l with
  | nil => simp
  | cons hd tl ih =>
    intro a y
    rw [List.foldl_cons, ih, clusterAddStation_clusterSets, if_pos rfl,
      mem_insertIfAbsent]
    constructor
    · rintro ((h | rfl) | h)
      · exact Or.inl h
      · exact Or.inr (List.mem_cons_self _ _)
      · exact Or.inr (List.mem_cons_of_mem _ h)
    · rintro (h | h)
      · exact Or.inl (Or.inl h)
      · rcases List.mem_cons.mp h with rfl | h
        · exact Or.inl (Or.inr rfl)
        · exact Or.inr h

theorem foldAdd_sets_nodup (c : ℕ) : ∀ (l : List ℕ) (a : RailState),
    (∀ c2, (a.clusterSets c2).Nodup) → ∀ (c2 : ℕ),
    ((l.foldl (fun a t => clusterAddStation a c t) a).clusterSets c2).Nodup := by
  intro l
  induction l with
  | nil => exact fun a h c2 => h c2
  | cons hd tl ih =>
    intro a h c2
    rw [List.foldl_cons]
    refine ih _ (fun c3 => ?_) c2
    rw [clusterAddStation_clusterSets]
    split
    · exact nodup_insertIfAbsent _ _ (h c)
    · exact h c3

/-! Characterization of `newClusterWith`. -/

theorem newClusterWith_frame (st : RailState) (l : List ℕ) :
    (newClusterWith st l).stations = st.stations
    ∧ (newClusterWith st l).nextCluster = st.nextCluster + 1 := by
  unfold newClusterWith
  refine ⟨((foldAdd_frame st.nextCluster l _).1).trans rfl,
    ((foldAdd_frame st.nextCluster l _).2.2).trans rfl⟩

theorem newClusterWith_clusterOf (st : RailState) (l : List ℕ) (x : ℕ) :
    (newClusterWith st l).clusterOf x =
      if x ∈ l then some st.nextCluster else st.clusterOf x := by
  unfold newClusterWith
  rw [foldAdd_clusterOf]

theorem newClusterWith_sets_new (st : RailState) (l : List ℕ) (y : ℕ) :
    y ∈ (newClusterWith st l).clusterSets st.nextCluster ↔ y ∈ l := by
  unfold newClusterWith
  rw [foldAdd_sets_mem]
  simp

theorem newClusterWith_sets_other (st : RailState) (l : List ℕ) (c2 : ℕ)
    (hne : c2 ≠ st.nextCluster) :
    (newClusterWith st l).clusterSets c2 = st.clusterSets c2 := by
  unfold newClusterWith
  rw [foldAdd_sets_other _ _ hne]
  simp [hne]

theorem newClusterWith_nodup (st : RailState) (l : List ℕ)
    (h : ∀ c2, (st.clusterSets c2).Nodup) (c2 : ℕ) :
    ((newClusterWith st l).clusterSets c2).Nodup := by
  unfold newClusterWith
  refine foldAdd_sets_nodup _ _ _ (fun c3 => ?_) c2
  dsimp only
  split
  · exact List.nodup_nil
  · exact h c3

/-! Characterization of `mergeClusters`.  The inner fold of each step reads
the current member set of the edited cluster; since merging only writes the
fresh cluster `m` and the pointers, the sets of the edited clusters are
untouched throughout provided none of them is `m` itself. -/

theorem mergeFold_spec (m : ℕ) : ∀ (ed : List ℕ) (a : RailState),
    (∀ c ∈ ed, c ≠ m) →
    (let res := ed.foldl
      (fun acc c => (acc.clusterSets c).foldl (fun x t => clusterAddStation x m t) acc) a
     res.stations = a.stations ∧ res.rails = a.rails
     ∧ res.nextCluster = a.nextCluster
     ∧ (∀ x, res.clusterOf x =
         if ∃ c ∈ ed, x ∈ a.clusterSets c then some m else a.clusterOf x)
     ∧ (∀ y, y ∈ res.clusterSets m ↔ y ∈ a.clusterSets m ∨ ∃ c ∈ ed, y ∈ a.clusterSets c)
     ∧ (∀ c2, c2 ≠ m → res.clusterSets c2 = a.clusterSets c2)
     ∧ ((∀ c2, (a.clusterSets c2).Nodup) → ∀ c2, (res.clusterSets c2).Nodup)) := by
  intro ed
  induction ed with
  | nil =>
    intro a _
    refine ⟨rfl, rfl, rfl, fun x => by simp, fun y => by simp, fun c2 _ => rfl, fun h => h⟩
  | cons hd tl ih =>
    intro a hne
    have hhd : hd ≠ m := hne hd (List.mem_cons_self _ _)
    have htl : ∀ c ∈ tl, c ≠ m := fun c hc => hne c (List.mem_cons_of_mem _ hc)
    rw [List.foldl_cons]
    set a1 := (a.clusterSets hd).foldl (fun x t => clusterAddStation x m t) a with ha1
    obtain ⟨hs, hr, hn, hptr, hsm, hso, hnd⟩ := ih a1 htl
    have ha1_sets_other : ∀ c2, c2 ≠ m → a1.clusterSets c2 = a.clusterSets c2 :=
      fun c2 h2 => foldAdd_sets_other m c2 h2 _ _
    refine ⟨hs.trans ((foldAdd_frame m _ a).1), hr.trans ((foldAdd_frame m _ a).2.1),
      hn.trans ((foldAdd_frame m _ a).2.2), ?_, ?_, ?_, ?_⟩
    · intro x
      rw [hptr x, foldAdd_clusterOf]
      by_cases hx : ∃ c ∈ tl, x ∈ a1.clusterSets c
      · rw [if_pos hx]
        obtain ⟨c, hc, hxc⟩ := hx
        rw [ha1_sets_other c (htl c hc)] at hxc
        rw [if_pos ⟨c, List.mem_cons_of_mem _ hc, hxc⟩]
      · rw [if_neg hx]
        by_cases hxh : x ∈ a.clusterSets hd
        · rw [if_pos hxh, if_pos ⟨hd, List.mem_cons_self _ _, hxh⟩]
        · rw [if_neg hxh, if_neg ?_]
          rintro ⟨c, hc, hxc⟩
          rcases List.mem_cons.mp hc with rfl | hc
          · exact hxh hxc
          · exact hx ⟨c, hc, by rwa [ha1_sets_other c (htl c hc)]⟩
    · intro y
      rw [hsm y, foldAdd_sets_mem]
      constructor
      · rintro ((h | h) | ⟨c, hc, hyc⟩)
        · exact Or.inl h
        · exact Or.inr ⟨hd, List.mem_cons_self _ _, h⟩
        · rw [ha1_sets_other c (htl c hc)] at hyc
          exact Or.inr ⟨c, List.mem_cons_of_mem _ hc, hyc⟩
      · rintro (h | ⟨c, hc, hyc⟩)
        · exact Or.inl (Or.inl h)
        · rcases List.mem_cons.mp hc with rfl | hc
          · exact Or.inl (Or.inr hyc)
          · exact Or.inr ⟨c, hc, by rwa [ha1_sets_other c (htl c hc)]⟩
    · intro c2 h2
      rw [hso c2 h2, ha1_sets_other c2 h2]
    · intro hnda c2
      exact hnd (fun c3 => foldAdd_sets_nodup m _ a hnda c3) c2

theorem mergeClusters_spec (st : RailState) (edited : List ℕ)
    (hne : ∀ c ∈ edited, c < st.nextCluster) :
    (mergeClusters st edited).stations = st.stations
    ∧ (mergeClusters st edited).nextCluster = st.nextCluster + 1
    ∧ (∀ x, (mergeClusters st edited).clusterOf x =
        if ∃ c ∈ edited, x ∈ st.clusterSets c then some st.nextCluster
        else st.clusterOf x)
    ∧ (∀ y, y ∈ (mergeClusters st edited).clusterSets st.nextCluster
        ↔ ∃ c ∈ edited, y ∈ st.clusterSets c)
    ∧ (∀ c2, c2 ≠ st.nextCluster →
        (mergeClusters st edited).clusterSets c2 = st.clusterSets c2)
    ∧ ((∀ c2, (st.clusterSets c2).Nodup) → ∀ c2,
        ((mergeClusters st edited).clusterSets c2).Nodup) := by
  have hnem : ∀ c ∈ edited, c ≠ st.nextCluster :=
    fun c hc => Nat.ne_of_lt (hne c hc)
  unfold mergeClusters
  set st1 : RailState :=
    { st with
      clusterSets := fun x => if x = st.nextCluster then [] else st.clusterSets x,
      nextCluster := st.nextCluster + 1 } with hst1
  obtain ⟨hs, hr, hn, hptr, hsm, hso, hnd⟩ := mergeFold_spec st.nextCluster edited st1 hnem
  have hst1_sets : ∀ c2, c2 ≠ st.nextCluster → st1.clusterSets c2 = st.clusterSets c2 := by
    intro c2 h2
    show (if c2 = st.nextCluster then [] else st.clusterSets c2) = st.clusterSets c2
    rw [if_neg h2]
  refine ⟨hs, hn, ?_, ?_, ?_, ?_⟩
  · intro x
    rw [hptr x]
    by_cases hx : ∃ c ∈ edited, x ∈ st1.clusterSets c
    · rw [if_pos hx]
      obtain ⟨c, hc, hxc⟩ := hx
      rw [hst1_sets c (hnem c hc)] at hxc
      rw [if_pos ⟨c, hc, hxc⟩]
    · rw [if_neg hx]
      have hx2 : ¬ ∃ c ∈ edited, x ∈ st.clusterSets c := by
        rintro ⟨c, hc, hxc⟩
        exact hx ⟨c, hc, by rwa [hst1_sets c (hnem c hc)]⟩
      rw [if_neg hx2]
  · intro y
    rw [hsm y]
    have : y ∈ st1.clusterSets st.nextCluster ↔ False := by
      show y ∈ (if st.nextCluster = st.nextCluster then [] else _) ↔ False
      rw [if_pos rfl]
      simp
    rw [this]
    constructor
    · rintro (h | ⟨c, hc, hyc⟩)
      · exact absurd h not_false
      · exact ⟨c, hc, by rwa [hst1_sets c (hnem c hc)] at hyc⟩
    · rintro ⟨c, hc, hyc⟩
      exact Or.inr ⟨c, hc, by rwa [hst1_sets c (hnem c hc)]⟩
  · intro c2 h2
    rw [hso c2 h2, hst1_sets c2 h2]
  · intro hnda c2
    refine hnd (fun c3 => ?_) c2
    show (if c3 = st.nextCluster then [] else st.clusterSets c3).Nodup
    split
    · exact List.nodup_nil
    · exact hnda c3

/-! Characterization of `deleteCluster` and `clusterRemoveStation`. -/

theorem foldNull_spec : ∀ (l : List ℕ) (a : RailState),
    (let res := l.foldl
      (fun a t => { a with clusterOf := fun x => if x = t then none else a.clusterOf x }) a
     res.stations = a.stations ∧ res.rails = a.rails
     ∧ res.nextCluster = a.nextCluster ∧ res.clusterSets = a.clusterSets
     ∧ ∀ x, res.clusterOf x = if x ∈ l then none else a.clusterOf x) := by
  intro l
  induction l with
  | nil => exact fun a => ⟨rfl, rfl, rfl, rfl, fun x => by simp⟩
  | cons hd tl ih =>
    intro a
    rw [List.foldl_cons]
    obtain ⟨hs, hr, hn, hcs, hptr⟩ := ih _
    refine ⟨hs, hr, hn, hcs, fun x => ?_⟩
    rw [hptr x]
    by_cases hx : x ∈ tl
    · rw [if_pos hx, if_pos (List.mem_cons_of_mem _ hx)]
    · rw [if_neg hx]
      show (if x = hd then none else a.clusterOf x) = _
      by_cases hxh : x = hd
      · rw [if_pos hxh, if_pos (by rw [hxh]; exact List.mem_cons_self hd tl)]
      · rw [if_neg hxh, if_neg (by simp [hxh, hx])]

theorem deleteCluster_spec (st : RailState) (c : ℕ) :
    (deleteCluster st c).stations = st.stations
    ∧ (deleteCluster st c).rails = st.rails
    ∧ (deleteCluster st c).nextCluster = st.nextCluster
    ∧ (∀ x, (deleteCluster st c).clusterOf x =
        if x ∈ st.clusterSets c then none else st.clusterOf x)
    ∧ (∀ c2, (deleteCluster st c).clusterSets c2 =
        if c2 = c then [] else st.clusterSets c2) := by
  unfold deleteCluster
  obtain ⟨hs, hr, hn, hcs, hptr⟩ := foldNull_spec (st.clusterSets c) st
  refine ⟨hs, hr, hn, hptr, fun c2 => ?_⟩
  show (if c2 = c then [] else _) = _
  rw [hcs]

theorem clusterRemoveStation_spec (st : RailState) (c t : ℕ) :
    (clusterRemoveStation st c t).stations = st.stations
    ∧ (clusterRemoveStation st c t).rails = st.rails
    ∧ (clusterRemoveStation st c t).nextCluster = st.nextCluster
    ∧ (clusterRemoveStation st c t).clusterOf = st.clusterOf
    ∧ (∀ c2, (clusterRemoveStation st c t).clusterSets c2 =
        if c2 = c then (st.clusterSets c).filter (fun y => decide (y ≠ t))
        else st.clusterSets c2) := by
  exact ⟨rfl, rfl, rfl, rfl, fun c2 => rfl⟩

/-! Reachability lemmas: monotonicity, behaviour under adding a star of
railroads at a fresh station, and under deleting all railroads of one
station. -/

theorem reach_mono (st st2 : RailState) (h : ∀ r ∈ st.rails, r ∈ st2.rails)
    {a b : ℕ} (hr : Reach st a b) : Reach st2 a b :=
  Relation.ReflTransGen.mono (fun _ _ hxy => hxy.imp (h _) (h _)) hr

theorem reach_isolated (st : RailState) (u : ℕ)
    (hiso : ∀ x, ¬ adjacent st x u) : ∀ t, Reach st t u → t = u := by
  intro t h
  rcases Relation.ReflTransGen.cases_tail h with h | ⟨c, _, hc⟩
  · exact h.symm
  · exact absurd hc (hiso c)

theorem adjacent_filter_of (st st2 : RailState) (u : ℕ)
    (hrails : st2.rails = st.rails.filter fun r => decide (r.1 ≠ u) && decide (r.2 ≠ u))
    {x y : ℕ} (h : adjacent st x y) (hx : x ≠ u) (hy : y ≠ u) :
    adjacent st2 x y := by
  rcases h with h | h
  · exact Or.inl (by rw [hrails]; exact List.mem_filter.mpr ⟨h, by simp [hx, hy]⟩)
  · exact Or.inr (by rw [hrails]; exact List.mem_filter.mpr ⟨h, by simp [hx, hy]⟩)

theorem adjacent_of_filter (st st2 : RailState) (u : ℕ)
    (hrails : st2.rails = st.rails.filter fun r => decide (r.1 ≠ u) && decide (r.2 ≠ u))
    {x y : ℕ} (h : adjacent st2 x y) : adjacent st x y := by
  rcases h with h | h
  · exact Or.inl (by rw [hrails] at h; exact (List.mem_filter.mp h).1)
  · exact Or.inr (by rw [hrails] at h; exact (List.mem_filter.mp h).1)

theorem reach_of_filter (st st2 : RailState) (u : ℕ)
    (hrails : st2.rails = st.rails.filter fun r => decide (r.1 ≠ u) && decide (r.2 ≠ u))
    {a b : ℕ} (h : Reach st2 a b) : Reach st a b :=
  Relation.ReflTransGen.mono
    (fun _ _ hxy => adjacent_of_filter st st2 u hrails hxy) h

/-- Every station that reaches `u` and is not `u` itself still reaches one
of `u`'s railroad neighbours after all of `u`'s railroads are deleted. -/
theorem reach_remove_cover (st st2 : RailState) (u : ℕ)
    (hrails : st2.rails = st.rails.filter fun r => decide (r.1 ≠ u) && decide (r.2 ≠ u)) :
    ∀ t, Reach st t u → t = u ∨ ∃ n, adjacent st n u ∧ Reach st2 t n := by
  intro t h
  induction h using Relation.ReflTransGen.head_induction_on with
  | refl => exact Or.inl rfl
  | head h1 h2 ih =>
    rename_i x y
    by_cases hxu : x = u
    · exact Or.inl hxu
    by_cases hyu : y = u
    · exact Or.inr ⟨x, hyu ▸ h1, Relation.ReflTransGen.refl⟩
    rcases ih with rfl | ⟨n, hn, hr⟩
    · exact absurd rfl hyu
    · exact Or.inr ⟨n, hn,
        Relation.ReflTransGen.head (adjacent_filter_of st st2 u hrails h1 hxu hyu) hr⟩

/-- A connection avoiding `u` entirely survives the deletion of `u`'s
railroads. -/
theorem reach_remove_avoid (st st2 : RailState) (u : ℕ)
    (hrails : st2.rails = st.rails.filter fun r => decide (r.1 ≠ u) && decide (r.2 ≠ u)) :
    ∀ a b, Reach st a b → ¬ Reach st a u → Reach st2 a b := by
  intro a b h
  induction h using Relation.ReflTransGen.head_induction_on with
  | refl => exact fun _ => Relation.ReflTransGen.refl
  | head h1 h2 ih =>
    rename_i x y
    intro hnot
    have hxu : x ≠ u := fun he => hnot (he ▸ Relation.ReflTransGen.refl)
    have hyu : y ≠ u := fun he => hnot (Relation.ReflTransGen.single (he ▸ h1))
    have hny : ¬ Reach st y u := fun hr => hnot (Relation.ReflTransGen.head h1 hr)
    exact Relation.ReflTransGen.head
      (adjacent_filter_of st st2 u hrails h1 hxu hyu) (ih hny)

/-- Decomposition of a connection in the graph obtained by adding a star of
railroads from a fresh station `s` to the stations of `N`: paths between
old stations either already existed or pass through the star; paths ending
at `s` reach some `N`-member in the old graph. -/
theorem star_reach (st st2 : RailState) (s : ℕ) (N : List ℕ)
    (hiso : ∀ r ∈ st.rails, r.1 ≠ s ∧ r.2 ≠ s)
    (hN : ∀ n ∈ N, n ≠ s)
    (hrails : st2.rails = st.rails ++ N.map fun n => (s, n)) :
    ∀ a b, Reach st2 a b →
      (a = s → b = s ∨ ∃ n ∈ N, Reach st b n)
      ∧ (¬ a = s → b = s → ∃ n ∈ N, Reach st a n)
      ∧ (¬ a = s → ¬ b = s →
          Reach st a b ∨ ((∃ n ∈ N, Reach st a n) ∧ ∃ n ∈ N, Reach st b n)) := by
  have hadj : ∀ x y, adjacent st2 x y →
      adjacent st x y ∨ (x = s ∧ y ∈ N) ∨ (y = s ∧ x ∈ N) := by
    intro x y h
    rcases h with h | h
    · rw [hrails] at h
      rcases List.mem_append.mp h with h | h
      · exact Or.inl (Or.inl h)
      · obtain ⟨n, hn, heq⟩ := List.mem_map.mp h
        have hx : s = x := congrArg Prod.fst heq
        have hy : n = y := congrArg Prod.snd heq
        exact Or.inr (Or.inl ⟨hx.symm, hy ▸ hn⟩)
    · rw [hrails] at h
      rcases List.mem_append.mp h with h | h
      · exact Or.inl (Or.inr h)
      · obtain ⟨n, hn, heq⟩ := List.mem_map.mp h
        have hy : s = y := congrArg Prod.fst heq
        have hx : n = x := congrArg Prod.snd heq
        exact Or.inr (Or.inr ⟨hy.symm, hx ▸ hn⟩)
  intro a b h
  induction h using Relation.ReflTransGen.head_induction_on with
  | refl =>
    refine ⟨fun ha => Or.inl ha, fun ha hb => absurd hb ha, fun _ _ => Or.inl Relation.ReflTransGen.refl⟩
  | head h1 h2 ih =>
    rename_i x y
    obtain ⟨ih1, ih2, ih3⟩ := ih
    rcases hadj x y h1 with hxy | ⟨hxs, hyN⟩ | ⟨hys, hxN⟩
    · have hxs : x ≠ s := by
        rcases hxy with hh | hh
        · exact (hiso _ hh).1
        · exact (hiso _ hh).2
      have hys : y ≠ s := by
        rcases hxy with hh | hh
        · exact (hiso _ hh).2
        · exact (hiso _ hh).1
      refine ⟨fun ha => absurd ha hxs, fun _ hb => ?_, fun _ hb => ?_⟩
      · obtain ⟨n, hn, hr⟩ := ih2 hys hb
        exact ⟨n, hn, Relation.ReflTransGen.head hxy hr⟩
      · rcases ih3 hys hb with hr | ⟨⟨n, hn, hrn⟩, htb⟩
        · exact Or.inl (Relation.ReflTransGen.head hxy hr)
        · exact Or.inr ⟨⟨n, hn, Relation.ReflTransGen.head hxy hrn⟩, htb⟩
    · have hys : y ≠ s := hN y hyN
      refine ⟨fun _ => ?_, fun ha _ => absurd hxs ha, fun ha _ => absurd hxs ha⟩
      by_cases hbs : b = s
      · exact Or.inl hbs
      · rcases ih3 hys hbs with hr | ⟨_, htb⟩
        · exact Or.inr ⟨y, hyN, reach_symm st hr⟩
        · exact Or.inr htb
    · have hxs : x ≠ s := hN x hxN
      have htx : ∃ n ∈ N, Reach st x n := ⟨x, hxN, Relation.ReflTransGen.refl⟩
      refine ⟨fun ha => absurd ha hxs, fun _ _ => htx, fun _ hb => ?_⟩
      rcases ih1 hys with hbs | htb
      · exact absurd hbs hb
      · exact Or.inr ⟨htx, htb⟩

/-! Correctness of the `computeCluster` BFS: with `bfsFuel` the queue
empties, and the visited set is exactly the railroad-connected component of
the start station. -/

theorem bfsVisit_zero (adj : ℕ → List ℕ) (queue visited : List ℕ) :
    bfsVisit adj 0 queue visited = visited := by
  simp only [bfsVisit]

theorem bfsVisit_nilQueue (adj : ℕ → List ℕ) (fuel : ℕ) (visited : List ℕ) :
    bfsVisit adj (fuel + 1) [] visited = visited := by
  simp only [bfsVisit]

theorem bfsVisit_skip (adj : ℕ → List ℕ) (fuel q : ℕ) (rest visited : List ℕ)
    (h : q ∈ visited) :
    bfsVisit adj (fuel + 1) (q :: rest) visited = bfsVisit adj fuel rest visited := by
  simp only [bfsVisit]
  rw [if_pos h]

theorem bfsVisit_visit (adj : ℕ → List ℕ) (fuel q : ℕ) (rest visited : List ℕ)
    (h : ¬ q ∈ visited) :
    bfsVisit adj (fuel + 1) (q :: rest) visited
      = bfsVisit adj fuel (rest ++ (adj q).filter fun n => decide (¬ n ∈ visited))
          (q :: visited) := by
  simp only [bfsVisit]
  rw [if_neg h]

theorem sum_filter_split (uni : Finset ℕ) (adj : ℕ → List ℕ) (visited : List ℕ)
    (q : ℕ) (hqu : q ∈ uni) (hqv : ¬ q ∈ visited) :
    ∑ t ∈ uni.filter (fun t => ¬ t ∈ visited), (1 + (adj t).length)
      = (1 + (adj q).length)
        + ∑ t ∈ uni.filter (fun t => ¬ t ∈ q :: visited), (1 + (adj t).length) := by
  have hins : uni.filter (fun t => ¬ t ∈ visited)
      = insert q (uni.filter (fun t => ¬ t ∈ q :: visited)) := by
    ext x
    simp only [Finset.mem_filter, Finset.mem_insert, List.mem_cons]
    constructor
    · rintro ⟨hx, hv⟩
      by_cases hxq : x = q
      · exact Or.inl hxq
      · exact Or.inr ⟨hx, fun h => h.elim hxq hv⟩
    · rintro (rfl | ⟨hx, hv⟩)
      · exact ⟨hqu, hqv⟩
      · exact ⟨hx, fun h => hv (Or.inr h)⟩
  rw [hins, Finset.sum_insert]
  simp

theorem bfsVisit_spec (adj : ℕ → List ℕ) (uni : Finset ℕ)
    (hadj : ∀ x y, y ∈ adj x → y ∈ uni) :
    ∀ (fuel : ℕ) (queue : List ℕ) (visited : List ℕ),
      (∀ x ∈ queue, x ∈ uni) →
      queue.length + ∑ t ∈ uni.filter (fun t => ¬ t ∈ visited), (1 + (adj t).length) ≤ fuel →
      ((∀ x ∈ visited, x ∈ bfsVisit adj fuel queue visited)
       ∧ (∀ x ∈ queue, x ∈ bfsVisit adj fuel queue visited)
       ∧ (∀ t ∈ bfsVisit adj fuel queue visited, ¬ t ∈ visited →
            ∀ y ∈ adj t, y ∈ bfsVisit adj fuel queue visited)
       ∧ (∀ t ∈ bfsVisit adj fuel queue visited, t ∈ visited ∨
            ∃ x ∈ queue, Relation.ReflTransGen (fun a b => b ∈ adj a) x t)) := by
  intro fuel
  induction fuel using Nat.strong_induction_on with
  | _ fuel ih =>
    intro queue visited hq hfuel
    match fuel, queue with
    | 0, queue =>
      have hq0 : queue.length = 0 := by omega
      rw [List.length_eq_zero] at hq0
      subst hq0
      rw [bfsVisit_zero]
      exact ⟨fun x hx => hx, by simp, fun t ht htv => absurd ht htv, fun t ht => Or.inl ht⟩
    | fuel + 1, [] =>
      rw [bfsVisit_nilQueue]
      exact ⟨fun x hx => hx, by simp, fun t ht htv => absurd ht htv, fun t ht => Or.inl ht⟩
    | fuel + 1, q :: rest =>
      have hqu : q ∈ uni := hq q (List.mem_cons_self _ _)
      by_cases hqv : q ∈ visited
      · rw [bfsVisit_skip adj fuel q rest visited hqv]
        have hq2 : ∀ x ∈ rest, x ∈ uni := fun x hx => hq x (List.mem_cons_of_mem _ hx)
        have hf2 : rest.length +
            ∑ t ∈ uni.filter (fun t => ¬ t ∈ visited), (1 + (adj t).length) ≤ fuel := by
          have := hfuel
          simp only [List.length_cons] at this
          omega
        obtain ⟨f1, f2, f3, f4⟩ := ih fuel (by omega) rest visited hq2 hf2
        refine ⟨f1, ?_, f3, ?_⟩
        · intro x hx
          rcases List.mem_cons.mp hx with rfl | hx
          · exact f1 x hqv
          · exact f2 x hx
        · intro t ht
          rcases f4 t ht with h | ⟨x, hx, hr⟩
          · exact Or.inl h
          · exact Or.inr ⟨x, List.mem_cons_of_mem _ hx, hr⟩
      · rw [bfsVisit_visit adj fuel q rest visited hqv]
        set filtered := (adj q).filter fun n => decide (¬ n ∈ visited) with hfiltered
        have hq2 : ∀ x ∈ rest ++ filtered, x ∈ uni := by
          intro x hx
          rcases List.mem_append.mp hx with hx | hx
          · exact hq x (List.mem_cons_of_mem _ hx)
          · exact hadj q x (List.mem_of_mem_filter hx)
        have hsplit := sum_filter_split uni adj visited q hqu hqv
        have hlen : filtered.length ≤ (adj q).length := List.length_filter_le _ _
        have hf2 : (rest ++ filtered).length +
            ∑ t ∈ uni.filter (fun t => ¬ t ∈ q :: visited), (1 + (adj t).length) ≤ fuel := by
          rw [List.length_append]
          simp only [List.length_cons] at hfuel
          omega
        obtain ⟨f1, f2, f3, f4⟩ := ih fuel (by omega) (rest ++ filtered) (q :: visited) hq2 hf2
        refine ⟨?_, ?_, ?_, ?_⟩
        · intro x hx
          exact f1 x (List.mem_cons_of_mem _ hx)
        · intro x hx
          rcases List.mem_cons.mp hx with rfl | hx
          · exact f1 x (List.mem_cons_self _ _)
          · exact f2 x (List.mem_append_left _ hx)
        · intro t ht htv
          by_cases htq : t = q
          · subst htq
            intro y hy
            by_cases hyv : y ∈ visited
            · exact f1 y (List.mem_cons_of_mem _ hyv)
            · refine f2 y (List.mem_append_right _ ?_)
              rw [hfiltered, List.mem_filter]
              exact ⟨hy, by simpa using hyv⟩
          · have : ¬ t ∈ q :: visited := by
              rw [List.mem_cons]
              rintro (rfl | h)
              · exact htq rfl
              · exact htv h
            exact f3 t ht this
        · intro t ht
          rcases f4 t ht with h | ⟨x, hx, hr⟩
          · rcases List.mem_cons.mp h with rfl | h
            · exact Or.inr ⟨t, List.mem_cons_self _ _, Relation.ReflTransGen.refl⟩
            · exact Or.inl h
          · rcases List.mem_append.mp hx with hx | hx
            · exact Or.inr ⟨x, List.mem_cons_of_mem _ hx, hr⟩
            · refine Or.inr ⟨q, List.mem_cons_self _ _, ?_⟩
              exact Relation.ReflTransGen.head (List.mem_of_mem_filter hx) hr

/-- All rail endpoints, as a list. -/
def endpointsList (st : RailState) : List ℕ :=
  st.rails.foldr (fun r acc => r.1 :: r.2 :: acc) []

theorem mem_endpointsList (st : RailState) :
    ∀ r ∈ st.rails, r.1 ∈ endpointsList st ∧ r.2 ∈ endpointsList st := by
  unfold endpointsList
  generalize st.rails = l
  induction l with
  | nil => intro r hr; cases hr
  | cons hd tl ih =>
    intro r hr
    rcases List.mem_cons.mp hr with rfl | hr
    · exact ⟨List.mem_cons_self _ _, List.mem_cons_of_mem _ (List.mem_cons_self _ _)⟩
    · obtain ⟨h1, h2⟩ := ih r hr
      exact ⟨List.mem_cons_of_mem _ (List.mem_cons_of_mem _ h1),
        List.mem_cons_of_mem _ (List.mem_cons_of_mem _ h2)⟩

theorem endpointsList_length (st : RailState) :
    (endpointsList st).length = 2 * st.rails.length := by
  unfold endpointsList
  generalize st.rails = l
  induction l with
  | nil => rfl
  | cons hd tl ih => simp [List.foldr_cons, ih]; omega

theorem neighborsOf_length_le (st : RailState) (u : ℕ) :
    (neighborsOf st u).length ≤ st.rails.length :=
  List.length_filterMap_le _ _

theorem neighborsOf_mem_endpoints (st : RailState) (u y : ℕ)
    (h : y ∈ neighborsOf st u) : y ∈ endpointsList st := by
  unfold neighborsOf at h
  obtain ⟨r, hr, hout⟩ := List.mem_filterMap.mp h
  by_cases h1 : r.1 = u
  · rw [if_pos h1] at hout
    have : r.2 = y := by injection hout
    exact this ▸ (mem_endpointsList st r hr).2
  · rw [if_neg h1] at hout
    by_cases h2 : r.2 = u
    · rw [if_pos h2] at hout
      have : r.1 = y := by injection hout
      exact this ▸ (mem_endpointsList st r hr).1
    · rw [if_neg h2] at hout
      cases hout

theorem neighborsOf_iff_adjacent (st : RailState)
    (hreg : ∀ r ∈ st.rails, r.1 ≠ r.2) (a b : ℕ) :
    b ∈ neighborsOf st a ↔ adjacent st a b := by
  rw [mem_neighborsOf]
  constructor
  · rintro (h | ⟨h, _⟩)
    · exact Or.inl h
    · exact Or.inr h
  · rintro (h | h)
    · exact Or.inl h
    · exact Or.inr ⟨h, hreg (b, a) h⟩

theorem computeCluster_spec (st : RailState)
    (hreg : ∀ r ∈ st.rails, r.1 ≠ r.2) (n : ℕ) :
    ∀ t, t ∈ computeCluster st n ↔ Reach st n t := by
  have hrtg : ∀ x t, Relation.ReflTransGen (fun a b => b ∈ neighborsOf st a) x t
      ↔ Reach st x t := by
    intro x t
    constructor
    · exact Relation.ReflTransGen.mono
        (fun a b h => (neighborsOf_iff_adjacent st hreg a b).mp h)
    · exact Relation.ReflTransGen.mono
        (fun a b h => (neighborsOf_iff_adjacent st hreg a b).mpr h)
  set uni : Finset ℕ := (n :: endpointsList st).toFinset with huni
  have hadj : ∀ x y, y ∈ neighborsOf st x → y ∈ uni := by
    intro x y hy
    rw [huni, List.mem_toFinset]
    exact List.mem_cons_of_mem _ (neighborsOf_mem_endpoints st x y hy)
  have hcard : uni.card ≤ 1 + 2 * st.rails.length := by
    calc uni.card ≤ (n :: endpointsList st).length := List.toFinset_card_le _
      _ = 1 + 2 * st.rails.length := by
          rw [List.length_cons, endpointsList_length]; omega
  have hface : ∀ t ∈ uni.filter (fun t => ¬ t ∈ ([] : List ℕ)),
      1 + (neighborsOf st t).length ≤ 1 + st.rails.length := by
    intro t _
    have := neighborsOf_length_le st t
    omega
  have hsum : ∑ t ∈ uni.filter (fun t => ¬ t ∈ ([] : List ℕ)),
      (1 + (neighborsOf st t).length) ≤ (1 + 2 * st.rails.length) * (1 + st.rails.length) := by
    calc ∑ t ∈ uni.filter (fun t => ¬ t ∈ ([] : List ℕ)), (1 + (neighborsOf st t).length)
        ≤ ∑ _t ∈ uni.filter (fun t => ¬ t ∈ ([] : List ℕ)), (1 + st.rails.length) :=
          Finset.sum_le_sum hface
      _ = (uni.filter (fun t => ¬ t ∈ ([] : List ℕ))).card * (1 + st.rails.length) := by
          rw [Finset.sum_const, smul_eq_mul]
      _ ≤ (1 + 2 * st.rails.length) * (1 + st.rails.length) := by
          refine Nat.mul_le_mul_right _ ?_
          calc (uni.filter (fun t => ¬ t ∈ ([] : List ℕ))).card
              ≤ uni.card := Finset.card_filter_le _ _
            _ ≤ _ := hcard
  have hfuel : ([n] : List ℕ).length +
      ∑ t ∈ uni.filter (fun t => ¬ t ∈ ([] : List ℕ)), (1 + (neighborsOf st t).length)
        ≤ bfsFuel st := by
    unfold bfsFuel
    simp only [List.length_cons, List.length_nil]
    omega
  have hq : ∀ x ∈ ([n] : List ℕ), x ∈ uni := by
    intro x hx
    rw [List.mem_singleton] at hx
    rw [hx, huni, List.mem_toFinset]
    exact List.mem_cons_self _ _
  obtain ⟨f1, f2, f3, f4⟩ :=
    bfsVisit_spec (neighborsOf st) uni hadj (bfsFuel st) [n] [] hq hfuel
  intro t
  constructor
  · intro ht
    rcases f4 t ht with h | ⟨x, hx, hr⟩
    · cases h
    · rw [List.mem_singleton] at hx
      subst hx
      exact (hrtg x t).mp hr
  · intro hr
    have : ∀ t, Reach st n t → t ∈ computeCluster st n := by
      intro t2 h2
      induction h2 with
      | refl => exact f2 n (List.mem_singleton_self _)
      | @tail b2 c2 hab hbc ihab =>
        exact f3 b2 ihab (by simp) c2 ((neighborsOf_iff_adjacent st hreg b2 c2).mpr hbc)
    exact this t hr

/-! Bookkeeping invariant of the candidate loop of
`connectToNearbyStations`, run from the freshly registered station `s` on
base state `base`.  `N` is the list of neighbours successfully connected so
far. -/

structure ConnInvW (base : RailState) (s : ℕ) (acc : RailState × List ℕ)
    (N : List ℕ) : Prop where
  stations_eq : acc.1.stations = base.stations
  next_eq : acc.1.nextCluster = base.nextCluster
  rails_eq : acc.1.rails = base.rails ++ N.map fun n => (s, n)
  n_mem : ∀ n ∈ N, n ∈ base.stations ∧ n ≠ s ∧ ∃ c, base.clusterOf n = some c
  edited_iff : ∀ c, c ∈ acc.2 ↔ ∃ n ∈ N, base.clusterOf n = some c
  ptr_other : ∀ x, x ≠ s → acc.1.clusterOf x = base.clusterOf x
  ptr_s_nil : acc.2 = [] → acc.1.clusterOf s = base.clusterOf s
  ptr_s_single : ∀ c, acc.2 = [c] → acc.1.clusterOf s = some c
  sets_edited : ∀ c ∈ acc.2, ∀ y,
    y ∈ acc.1.clusterSets c ↔ y ∈ base.clusterSets c ∨ y = s
  sets_other : ∀ c, ¬ c ∈ acc.2 → acc.1.clusterSets c = base.clusterSets c
  sets_nodup : (∀ c, (base.clusterSets c).Nodup) →
    ∀ c, (acc.1.clusterSets c).Nodup

theorem insertIfAbsent_eq_singleton {l : List ℕ} {x y : ℕ}
    (h : insertIfAbsent l x = [y]) : x = y := by
  unfold insertIfAbsent at h
  split at h
  · rename_i hx
    rw [h] at hx
    exact List.mem_singleton.mp hx
  · rcases l with _ | ⟨a, l⟩
    · simpa using h
    · simp only [List.cons_append] at h
      have := congrArg List.length h
      simp [List.length_append] at this

theorem connInv_init (base : RailState) (s : ℕ) :
    ConnInvW base s (base, []) [] := by
  refine ⟨rfl, rfl, by simp, by simp, by simp, fun x _ => rfl, fun _ => rfl,
    fun c hc => by simp at hc, fun c hc => absurd hc (List.not_mem_nil c),
    fun c _ => rfl, fun h => h⟩

theorem connInv_step (base : RailState) (pathLen : ℕ → ℕ → ℕ) (s : ℕ)
    (acc : RailState × List ℕ) (cand : ℕ × ℕ) (N : List ℕ)
    (h : ConnInvW base s acc N) :
    ∃ N2, ConnInvW base s (connectCandidate pathLen s acc cand) N2 := by
  unfold connectCandidate
  by_cases h1 : cand.1 = s
  · rw [if_pos h1]; exact ⟨N, h⟩
  rw [if_neg h1]
  by_cases h2 : ¬ cand.1 ∈ acc.1.stations
  · rw [if_pos h2]; exact ⟨N, h⟩
  rw [if_neg h2]
  dsimp only
  rcases hc : acc.1.clusterOf cand.1 with _ | c
  · exact ⟨N, h⟩
  dsimp only
  by_cases hguard : ((maxConnectionDistance : ℤ) <
        distanceFrom acc.1 cand.1 s maxConnectionDistance
      ∨ distanceFrom acc.1 cand.1 s maxConnectionDistance = -1)
      ∧ trainStationMinRange ^ 2 < cand.2
  swap
  · rw [if_neg hguard]; exact ⟨N, h⟩
  rw [if_pos hguard]
  unfold connect
  by_cases hok : 0 < pathLen s cand.1 ∧ pathLen s cand.1 < railroadMaxSize
  swap
  · rw [if_neg hok]; exact ⟨N, h⟩
  rw [if_pos hok]
  dsimp only
  have hbc : base.clusterOf cand.1 = some c := by
    rw [← h.ptr_other cand.1 h1]; exact hc
  have hcandbase : cand.1 ∈ base.stations := by
    rw [← h.stations_eq]
    exact not_not.mp h2
  refine ⟨N ++ [cand.1], ?_, ?_, ?_, ?_, ?_, ?_, ?_, ?_, ?_, ?_, ?_⟩
  · exact h.stations_eq
  · exact h.next_eq
  · show acc.1.rails ++ [(s, cand.1)] = _
    rw [h.rails_eq, List.map_append, List.append_assoc]
    rfl
  · intro n hn
    rcases List.mem_append.mp hn with hn | hn
    · exact h.n_mem n hn
    · rw [List.mem_singleton] at hn
      subst hn
      exact ⟨hcandbase, h1, c, hbc⟩
  · intro c2
    rw [mem_insertIfAbsent, h.edited_iff c2]
    constructor
    · rintro (⟨n, hn, hptr⟩ | rfl)
      · exact ⟨n, List.mem_append_left _ hn, hptr⟩
      · exact ⟨cand.1, List.mem_append_right _ (List.mem_singleton_self _), hbc⟩
    · rintro ⟨n, hn, hptr⟩
      rcases List.mem_append.mp hn with hn | hn
      · exact Or.inl ⟨n, hn, hptr⟩
      · rw [List.mem_singleton] at hn
        subst hn
        rw [hbc] at hptr
        exact Or.inr (Option.some_inj.mp hptr).symm
  · intro x hx
    show (if x = s then some c else acc.1.clusterOf x) = _
    rw [if_neg hx]
    exact h.ptr_other x hx
  · intro hnil
    refine absurd hnil ?_
    show ¬ insertIfAbsent acc.2 c = []
    unfold insertIfAbsent
    split
    · rename_i hmem
      intro hnil2
      rw [hnil2] at hmem
      cases hmem
    · simp
  · intro c2 hc2
    have := insertIfAbsent_eq_singleton hc2
    subst this
    show (if s = s then some c else _) = _
    rw [if_pos rfl]
  · intro c2 hc2 y
    show y ∈ (if c2 = c then insertIfAbsent _ s else _) ↔ _
    by_cases he : c2 = c
    · subst he
      rw [if_pos rfl, mem_insertIfAbsent]
      by_cases hcm : c2 ∈ acc.2
      · rw [h.sets_edited c2 hcm y]
        tauto
      · rw [h.sets_other c2 hcm]
    · rw [if_neg he]
      have hcm : c2 ∈ acc.2 := by
        rcases (mem_insertIfAbsent acc.2 c c2).mp hc2 with hh | hh
        · exact hh
        · exact absurd hh he
      exact h.sets_edited c2 hcm y
  · intro c2 hc2
    rw [mem_insertIfAbsent] at hc2
    push_neg at hc2
    show (if c2 = c then _ else acc.1.clusterSets c2) = _
    rw [if_neg hc2.2]
    exact h.sets_other c2 hc2.1
  · intro hb c2
    show (if c2 = c then insertIfAbsent (acc.1.clusterSets c) s else acc.1.clusterSets c2).Nodup
    split
    · exact nodup_insertIfAbsent _ _ (h.sets_nodup hb c)
    · exact h.sets_nodup hb c2

theorem connInv_fold (base : RailState) (pathLen : ℕ → ℕ → ℕ) (s : ℕ) :
    ∀ (l : List (ℕ × ℕ)) (acc : RailState × List ℕ) (N : List ℕ),
      ConnInvW base s acc N →
      ∃ N2, ConnInvW base s (l.foldl (connectCandidate pathLen s) acc) N2 := by
  intro l
  induction l with
  | nil => exact fun acc N h => ⟨N, h⟩
  | cons hd tl ih =>
    intro acc N h
    rw [List.foldl_cons]
    obtain ⟨N1, h1⟩ := connInv_step base pathLen s acc hd N h
    exact ih _ N1 h1

/-! Preservation of `Inv` by `connectStation` on a fresh station. -/

/-- The state right after `stationManager.addStation(station)`. -/
def regState (st : RailState) (s : ℕ) : RailState :=
  { st with stations := insertIfAbsent st.stations s }

theorem regState_stations (st : RailState) (s : ℕ) (hfs : ¬ s ∈ st.stations) :
    (regState st s).stations = st.stations ++ [s] := by
  show insertIfAbsent st.stations s = _
  unfold insertIfAbsent
  rw [if_neg hfs]

theorem reach_eq_of_rails (st1 st2 : RailState) (h : st1.rails = st2.rails) :
    ∀ a b, Reach st1 a b ↔ Reach st2 a b := by
  intro a b
  constructor
  · exact reach_mono st1 st2 (fun r hr => h ▸ hr)
  · exact reach_mono st2 st1 (fun r hr => h.symm ▸ hr)

theorem connect_case_zero (st : RailState) (s : ℕ) (R : RailState) (N : List ℕ)
    (hI : Inv st) (hfs : ¬ s ∈ st.stations) (hfptr : st.clusterOf s = none)
    (hW : ConnInvW (regState st s) s (R, []) N) :
    Inv (newClusterWith R [s]) := by
  have hN0 : N = [] := by
    rw [List.eq_nil_iff_forall_not_mem]
    intro n hn
    obtain ⟨_, _, c, hc⟩ := hW.n_mem n hn
    exact absurd ((hW.edited_iff c).mpr ⟨n, hn, hc⟩) (List.not_mem_nil c)
  have hstfresh : ∀ x ∈ st.stations, x ≠ s := fun x hx he => hfs (he ▸ hx)
  set m := st.nextCluster with hm
  set F := newClusterWith R [s] with hF
  have hRnext : R.nextCluster = m := hW.next_eq
  have hRst : R.stations = st.stations ++ [s] :=
    hW.stations_eq.trans (regState_stations st s hfs)
  have hRrails : R.rails = st.rails := by
    rw [hW.rails_eq, hN0]
    simp
    rfl
  have hRptr : ∀ x, R.clusterOf x = st.clusterOf x := by
    intro x
    by_cases hx : x = s
    · rw [hx, hW.ptr_s_nil rfl]
      rfl
    · rw [hW.ptr_other x hx]
      rfl
  have hRsets : ∀ c, R.clusterSets c = st.clusterSets c := by
    intro c
    rw [hW.sets_other c (List.not_mem_nil c)]
    rfl
  have hstF : F.stations = st.stations ++ [s] := by
    rw [hF, (newClusterWith_frame R [s]).1, hRst]
  have hrailsF : F.rails = st.rails := by
    rw [hF, newClusterWith_rails, hRrails]
  have hnextF : F.nextCluster = m + 1 := by
    rw [hF, (newClusterWith_frame R [s]).2, hRnext]
  have hptrF : ∀ x, F.clusterOf x = if x = s then some m else st.clusterOf x := by
    intro x
    rw [hF, newClusterWith_clusterOf, hRnext, hRptr]
    by_cases hx : x = s
    · rw [if_pos (List.mem_singleton.mpr hx), if_pos hx]
    · rw [if_neg (fun h => hx (List.mem_singleton.mp h)), if_neg hx]
  have hsetsF_m : ∀ y, y ∈ F.clusterSets m ↔ y = s := by
    intro y
    rw [hF, ← hRnext, newClusterWith_sets_new]
    exact List.mem_singleton
  have hsetsF_other : ∀ c, c ≠ m → F.clusterSets c = st.clusterSets c := by
    intro c hc
    rw [hF, newClusterWith_sets_other R [s] c (hRnext ▸ hc), hRsets]
  have hmemF : ∀ x, x ∈ F.stations ↔ x ∈ st.stations ∨ x = s := by
    intro x
    rw [hstF]
    simp
  have hsiso : ∀ x, ¬ adjacent F x s := by
    intro x hadj
    rcases hadj with h | h
    · rw [hrailsF] at h
      exact hstfresh _ (hI.rails_reg _ h).2.1 rfl
    · rw [hrailsF] at h
      exact hstfresh _ (hI.rails_reg _ h).1 rfl
  have hreachF : ∀ a b, Reach F a b ↔ Reach st a b :=
    reach_eq_of_rails F st hrailsF
  constructor
  · intro x hx
    rcases (hmemF x).mp hx with hx | rfl
    · obtain ⟨c, hc⟩ := hI.ptr_some x hx
      exact ⟨c, by rw [hptrF, if_neg (hstfresh x hx), hc]⟩
    · exact ⟨m, by rw [hptrF, if_pos rfl]⟩
  · intro c hc t
    obtain ⟨u, hu, huc⟩ := hc
    by_cases hcm : c = m
    · subst hcm
      rw [hsetsF_m t]
      constructor
      · rintro rfl
        exact ⟨(hmemF t).mpr (Or.inr rfl), by rw [hptrF, if_pos rfl]⟩
      · rintro ⟨hts, htp⟩
        rw [hptrF] at htp
        by_cases hts2 : t = s
        · exact hts2
        · rw [if_neg hts2] at htp
          exact absurd (hI.ptr_lt t m htp) (lt_irrefl m)
    · rw [hsetsF_other c hcm]
      rw [hptrF] at huc
      have hus : u ≠ s := by
        intro he
        rw [if_pos he] at huc
        exact hcm (Option.some_inj.mp huc).symm
      rw [if_neg hus] at huc
      have hust : u ∈ st.stations := by
        rcases (hmemF u).mp hu with h | h
        · exact h
        · exact absurd h hus
      rw [hI.members_iff c ⟨u, hust, huc⟩ t]
      constructor
      · rintro ⟨hts, htp⟩
        exact ⟨(hmemF t).mpr (Or.inl hts),
          by rw [hptrF, if_neg (hstfresh t hts), htp]⟩
      · rintro ⟨hts, htp⟩
        rw [hptrF] at htp
        by_cases hts2 : t = s
        · rw [if_pos hts2] at htp
          exact absurd (Option.some_inj.mp htp).symm hcm
        · rw [if_neg hts2] at htp
          rcases (hmemF t).mp hts with h | h
          · exact ⟨h, htp⟩
          · exact absurd h hts2
  · intro r hr
    rw [hrailsF] at hr
    obtain ⟨h1, h2, h3⟩ := hI.rails_reg r hr
    exact ⟨(hmemF _).mpr (Or.inl h1), (hmemF _).mpr (Or.inl h2), h3⟩
  · intro a ha b hb
    have hsiso_st : ∀ x, ¬ adjacent st x s := by
      intro x hadj
      rcases hadj with h | h
      · exact hstfresh _ (hI.rails_reg _ h).2.1 rfl
      · exact hstfresh _ (hI.rails_reg _ h).1 rfl
    rw [hptrF a, hptrF b, hreachF]
    by_cases has : a = s
    · by_cases hbs : b = s
      · rw [if_pos has, if_pos hbs, has, hbs]
        exact ⟨fun _ => Relation.ReflTransGen.refl, fun _ => rfl⟩
      · rw [if_pos has, if_neg hbs]
        constructor
        · intro he
          exfalso
          have := hI.ptr_lt b m he.symm
          exact absurd this (lt_irrefl m)
        · intro hr
          exfalso
          refine hbs (reach_isolated st s hsiso_st b (reach_symm st ?_))
          rw [← has]
          exact hr
    · by_cases hbs : b = s
      · rw [if_neg has, if_pos hbs]
        constructor
        · intro he
          exact absurd (hI.ptr_lt a m he) (lt_irrefl m)
        · intro hr
          exfalso
          refine has (reach_isolated st s hsiso_st a ?_)
          rw [← hbs]
          exact hr
      · rw [if_neg has, if_neg hbs]
        have hast : a ∈ st.stations := ((hmemF a).mp ha).resolve_right has
        have hbst : b ∈ st.stations := ((hmemF b).mp hb).resolve_right hbs
        exact hI.ptr_reach a hast b hbst
  · intro x c hc
    rw [hptrF] at hc
    by_cases hx : x = s
    · rw [if_pos hx] at hc
      have hcm : m = c := Option.some_inj.mp hc
      rw [hnextF, ← hcm]
      omega
    · rw [if_neg hx] at hc
      rw [hnextF]
      have := hI.ptr_lt x c hc
      omega
  · intro c
    exact newClusterWith_nodup R [s]
      (fun c2 => by rw [hRsets]; exact hI.members_nodup c2) c

theorem connect_case_one (st : RailState) (s : ℕ) (R : RailState) (N : List ℕ)
    (c0 : ℕ) (hI : Inv st) (hfs : ¬ s ∈ st.stations)
    (hW : ConnInvW (regState st s) s (R, [c0]) N) :
    Inv R := by
  have hstfresh : ∀ x ∈ st.stations, x ≠ s := fun x hx he => hfs (he ▸ hx)
  have hbptr : ∀ x, (regState st s).clusterOf x = st.clusterOf x := fun _ => rfl
  have hbsets : ∀ c, (regState st s).clusterSets c = st.clusterSets c := fun _ => rfl
  have hNall : ∀ n ∈ N, n ∈ st.stations ∧ n ≠ s ∧ st.clusterOf n = some c0 := by
    intro n hn
    obtain ⟨hn1, hn2, c, hc⟩ := hW.n_mem n hn
    rw [hbptr] at hc
    have : c ∈ [c0] := (hW.edited_iff c).mpr ⟨n, hn, by rw [hbptr]; exact hc⟩
    rw [List.mem_singleton] at this
    subst this
    refine ⟨?_, hn2, hc⟩
    rw [regState_stations st s hfs] at hn1
    rcases List.mem_append.mp hn1 with h | h
    · exact h
    · exact absurd (List.mem_singleton.mp h) hn2
  obtain ⟨n0, hn0, hn0c⟩ : ∃ n ∈ N, st.clusterOf n = some c0 := by
    obtain ⟨n, hn, hc⟩ := (hW.edited_iff c0).mp (List.mem_singleton_self c0)
    exact ⟨n, hn, by rw [hbptr] at hc; exact hc⟩
  have hn0st := (hNall n0 hn0).1
  have hc0lt : c0 < st.nextCluster := hI.ptr_lt n0 c0 hn0c
  have hc0ref : ∃ t ∈ st.stations, st.clusterOf t = some c0 := ⟨n0, hn0st, hn0c⟩
  have hRst : R.stations = st.stations ++ [s] :=
    hW.stations_eq.trans (regState_stations st s hfs)
  have hmemR : ∀ x, x ∈ R.stations ↔ x ∈ st.stations ∨ x = s := by
    intro x
    rw [hRst]
    simp
  have hRnext : R.nextCluster = st.nextCluster := hW.next_eq
  have hRrails : R.rails = st.rails ++ N.map fun n => (s, n) := hW.rails_eq
  have hRptr_o : ∀ x, x ≠ s → R.clusterOf x = st.clusterOf x := by
    intro x hx
    rw [hW.ptr_other x hx, hbptr]
  have hRptr_s : R.clusterOf s = some c0 := hW.ptr_s_single c0 rfl
  have hRsets_c0 : ∀ y, y ∈ R.clusterSets c0 ↔ y ∈ st.clusterSets c0 ∨ y = s := by
    intro y
    rw [hW.sets_edited c0 (List.mem_singleton_self c0) y, hbsets]
  have hRsets_o : ∀ c, c ≠ c0 → R.clusterSets c = st.clusterSets c := by
    intro c hc
    rw [hW.sets_other c (fun h => hc (List.mem_singleton.mp h)), hbsets]
  have hiso : ∀ r ∈ st.rails, r.1 ≠ s ∧ r.2 ≠ s := by
    intro r hr
    obtain ⟨h1, h2, _⟩ := hI.rails_reg r hr
    exact ⟨hstfresh _ h1, hstfresh _ h2⟩
  have hNs : ∀ n ∈ N, n ≠ s := fun n hn => (hNall n hn).2.1
  have hstar := star_reach st R s N hiso hNs hRrails
  have htouch_ptr : ∀ a, (∃ n ∈ N, Reach st a n) → st.clusterOf a = some c0 := by
    rintro a ⟨n, hn, hr⟩
    have hna := (hNall n hn).1
    have ha : a ∈ st.stations := by
      rcases (Relation.ReflTransGen.cases_head hr) with rfl | ⟨c, hc, _⟩
      · exact hna
      · rcases hc with hc | hc
        · exact (hI.rails_reg _ hc).1
        · exact (hI.rails_reg _ hc).2.1
    rw [(hI.ptr_reach a ha n hna).mpr hr, (hNall n hn).2.2]
  have hptr_touch : ∀ a ∈ st.stations, st.clusterOf a = some c0 → Reach st a n0 := by
    intro a ha hc
    exact (hI.ptr_reach a ha n0 hn0st).mp (by rw [hc, hn0c])
  have hreach_to_s : ∀ a ∈ st.stations, st.clusterOf a = some c0 → Reach R a s := by
    intro a ha hc
    refine Relation.ReflTransGen.tail
      (reach_mono st R (fun r hr => by rw [hRrails]; exact List.mem_append_left _ hr)
        (hptr_touch a ha hc)) ?_
    exact Or.inr (by
      rw [hRrails]
      exact List.mem_append_right _ (List.mem_map.mpr ⟨n0, hn0, rfl⟩))
  constructor
  · intro x hx
    rcases (hmemR x).mp hx with hx | rfl
    · obtain ⟨c, hc⟩ := hI.ptr_some x hx
      exact ⟨c, by rw [hRptr_o x (hstfresh x hx), hc]⟩
    · exact ⟨c0, hRptr_s⟩
  · intro c hc t
    obtain ⟨u, hu, huc⟩ := hc
    by_cases hcc : c = c0
    · subst hcc
      rw [hRsets_c0 t]
      rw [hI.members_iff c hc0ref t]
      constructor
      · rintro (⟨hts, htp⟩ | rfl)
        · exact ⟨(hmemR t).mpr (Or.inl hts), by rw [hRptr_o t (hstfresh t hts)]; exact htp⟩
        · exact ⟨(hmemR t).mpr (Or.inr rfl), hRptr_s⟩
      · rintro ⟨hts, htp⟩
        by_cases hts2 : t = s
        · exact Or.inr hts2
        · rw [hRptr_o t hts2] at htp
          exact Or.inl ⟨((hmemR t).mp hts).resolve_right hts2, htp⟩
    · have hus : u ≠ s := by
        intro he
        rw [he, hRptr_s] at huc
        exact hcc (Option.some_inj.mp huc).symm
      rw [hRptr_o u hus] at huc
      have hust : u ∈ st.stations := ((hmemR u).mp hu).resolve_right hus
      rw [hRsets_o c hcc, hI.members_iff c ⟨u, hust, huc⟩ t]
      constructor
      · rintro ⟨hts, htp⟩
        exact ⟨(hmemR t).mpr (Or.inl hts), by rw [hRptr_o t (hstfresh t hts)]; exact htp⟩
      · rintro ⟨hts, htp⟩
        by_cases hts2 : t = s
        · rw [hts2, hRptr_s] at htp
          exact absurd (Option.some_inj.mp htp).symm hcc
        · rw [hRptr_o t hts2] at htp
          exact ⟨((hmemR t).mp hts).resolve_right hts2, htp⟩
  · intro r hr
    rw [hRrails] at hr
    rcases List.mem_append.mp hr with hr | hr
    · obtain ⟨h1, h2, h3⟩ := hI.rails_reg r hr
      exact ⟨(hmemR _).mpr (Or.inl h1), (hmemR _).mpr (Or.inl h2), h3⟩
    · obtain ⟨n, hn, heq⟩ := List.mem_map.mp hr
      subst heq
      exact ⟨(hmemR _).mpr (Or.inr rfl), (hmemR _).mpr (Or.inl (hNall n hn).1),
        fun h => (hNall n hn).2.1 h.symm⟩
  · intro a ha b hb
    by_cases has : a = s
    · by_cases hbs : b = s
      · subst has
        subst hbs
        exact ⟨fun _ => Relation.ReflTransGen.refl, fun _ => rfl⟩
      · subst has
        have hbst : b ∈ st.stations := ((hmemR b).mp hb).resolve_right hbs
        rw [hRptr_s, hRptr_o b hbs]
        constructor
        · intro he
          exact reach_symm R (hreach_to_s b hbst he.symm)
        · intro hr
          have := (hstar a b hr).1 rfl
          rcases this with rfl | htouch
          · exact absurd rfl hbs
          · exact (htouch_ptr b htouch).symm
    · by_cases hbs : b = s
      · subst hbs
        have hast : a ∈ st.stations := ((hmemR a).mp ha).resolve_right has
        rw [hRptr_s, hRptr_o a has]
        constructor
        · intro he
          exact hreach_to_s a hast he
        · intro hr
          obtain htouch := (hstar a b hr).2.1 has rfl
          exact htouch_ptr a htouch
      · have hast : a ∈ st.stations := ((hmemR a).mp ha).resolve_right has
        have hbst : b ∈ st.stations := ((hmemR b).mp hb).resolve_right hbs
        rw [hRptr_o a has, hRptr_o b hbs]
        rw [hI.ptr_reach a hast b hbst]
        constructor
        · exact reach_mono st R (fun r hr => by rw [hRrails]; exact List.mem_append_left _ hr)
        · intro hr
          rcases (hstar a b hr).2.2 has hbs with hr2 | ⟨hta, htb⟩
          · exact hr2
          · have h1 := htouch_ptr a hta
            have h2 := htouch_ptr b htb
            exact (hI.ptr_reach a hast b hbst).mp (by rw [h1, h2])
  · intro x c hc
    rw [hRnext]
    by_cases hx : x = s
    · rw [hx, hRptr_s] at hc
      rw [← Option.some_inj.mp hc]
      exact hc0lt
    · rw [hRptr_o x hx] at hc
      exact hI.ptr_lt x c hc
  · exact hW.sets_nodup (fun c => hI.members_nodup c)

theorem connect_case_many (st : RailState) (s : ℕ) (R : RailState) (N : List ℕ)
    (E : List ℕ) (hI : Inv st) (hfs : ¬ s ∈ st.stations)
    (hW : ConnInvW (regState st s) s (R, E) N) (hlen : 1 ≤ E.length) :
    Inv (mergeClusters R E) := by
  have hstfresh : ∀ x ∈ st.stations, x ≠ s := fun x hx he => hfs (he ▸ hx)
  have hbptr : ∀ x, (regState st s).clusterOf x = st.clusterOf x := fun _ => rfl
  have hbsets : ∀ c, (regState st s).clusterSets c = st.clusterSets c := fun _ => rfl
  set m0 := st.nextCluster with hm0
  have hRst : R.stations = st.stations ++ [s] :=
    hW.stations_eq.trans (regState_stations st s hfs)
  have hmemR : ∀ x, x ∈ R.stations ↔ x ∈ st.stations ∨ x = s := by
    intro x
    rw [hRst]
    simp
  have hRnext : R.nextCluster = m0 := hW.next_eq
  have hRrails : R.rails = st.rails ++ N.map fun n => (s, n) := hW.rails_eq
  have hRptr_o : ∀ x, x ≠ s → R.clusterOf x = st.clusterOf x := by
    intro x hx
    rw [hW.ptr_other x hx, hbptr]
  have hE : ∀ c, c ∈ E ↔ ∃ n ∈ N, st.clusterOf n = some c := by
    intro c
    rw [hW.edited_iff c]
    constructor
    · rintro ⟨n, hn, hc⟩
      exact ⟨n, hn, by rw [hbptr] at hc; exact hc⟩
    · rintro ⟨n, hn, hc⟩
      exact ⟨n, hn, by rw [hbptr]; exact hc⟩
  have hNmem : ∀ n ∈ N, n ∈ st.stations ∧ n ≠ s ∧ ∃ c ∈ E, st.clusterOf n = some c := by
    intro n hn
    obtain ⟨hn1, hn2, c, hc⟩ := hW.n_mem n hn
    rw [hbptr] at hc
    refine ⟨?_, hn2, c, (hE c).mpr ⟨n, hn, hc⟩, hc⟩
    rw [regState_stations st s hfs] at hn1
    rcases List.mem_append.mp hn1 with h | h
    · exact h
    · exact absurd (List.mem_singleton.mp h) hn2
  have hEref : ∀ c ∈ E, ∃ t ∈ st.stations, st.clusterOf t = some c := by
    intro c hc
    obtain ⟨n, hn, hnc⟩ := (hE c).mp hc
    exact ⟨n, (hNmem n hn).1, hnc⟩
  have hElt : ∀ c ∈ E, c < m0 := by
    intro c hc
    obtain ⟨n, hn, hnc⟩ := (hE c).mp hc
    exact hI.ptr_lt n c hnc
  obtain ⟨c1, hc1⟩ : ∃ c, c ∈ E := by
    cases E with
    | nil => simp at hlen
    | cons hd tl => exact ⟨hd, List.mem_cons_self _ _⟩
  obtain ⟨hFs, hFn, hFptr0, hFm0, hFso, hFnd⟩ :=
    mergeClusters_spec R E (fun c hc => by rw [hRnext]; exact hElt c hc)
  have hsetsR_E : ∀ c ∈ E, ∀ y, y ∈ R.clusterSets c ↔ y ∈ st.clusterSets c ∨ y = s := by
    intro c hc y
    rw [hW.sets_edited c hc y, hbsets]
  have hcond : ∀ x, (∃ c ∈ E, x ∈ R.clusterSets c) ↔
      (x = s ∨ (x ∈ st.stations ∧ ∃ c ∈ E, st.clusterOf x = some c)) := by
    intro x
    constructor
    · rintro ⟨c, hc, hxc⟩
      rcases (hsetsR_E c hc x).mp hxc with hxc | rfl
      · refine Or.inr ⟨?_, c, hc, ?_⟩
        · exact ((hI.members_iff c (hEref c hc) x).mp hxc).1
        · exact ((hI.members_iff c (hEref c hc) x).mp hxc).2
      · exact Or.inl rfl
    · rintro (rfl | ⟨hx, c, hc, hxc⟩)
      · exact ⟨c1, hc1, (hsetsR_E c1 hc1 x).mpr (Or.inr rfl)⟩
      · exact ⟨c, hc, (hsetsR_E c hc x).mpr
          (Or.inl ((hI.members_iff c (hEref c hc) x).mpr ⟨hx, hxc⟩))⟩
  set F := mergeClusters R E with hF
  have hstF : F.stations = st.stations ++ [s] := hFs.trans hRst
  have hmemF : ∀ x, x ∈ F.stations ↔ x ∈ st.stations ∨ x = s := by
    intro x
    rw [hstF]
    simp
  have hrailsF : F.rails = st.rails ++ N.map fun n => (s, n) :=
    (mergeClusters_rails R E).trans hRrails
  have hnextF : F.nextCluster = m0 + 1 := by
    rw [hFn, hRnext]
  have hptrF : ∀ x, F.clusterOf x =
      if x = s ∨ (x ∈ st.stations ∧ ∃ c ∈ E, st.clusterOf x = some c)
      then some m0 else st.clusterOf x := by
    intro x
    rw [hFptr0 x]
    by_cases hx : ∃ c ∈ E, x ∈ R.clusterSets c
    · rw [if_pos hx, if_pos ((hcond x).mp hx), hRnext]
    · rw [if_neg hx, if_neg (fun h => hx ((hcond x).mpr h))]
      have hxs : x ≠ s := by
        intro he
        exact hx ((hcond x).mpr (Or.inl he))
      exact hRptr_o x hxs
  have hsetsF_m : ∀ y, y ∈ F.clusterSets m0 ↔
      (y = s ∨ (y ∈ st.stations ∧ ∃ c ∈ E, st.clusterOf y = some c)) := by
    intro y
    rw [← hRnext, hFm0 y, ← hcond y]
  have hsetsF_o : ∀ c, c ≠ m0 → F.clusterSets c = R.clusterSets c := by
    intro c hc
    exact hFso c (by rw [hRnext]; exact hc)
  have hiso : ∀ r ∈ st.rails, r.1 ≠ s ∧ r.2 ≠ s := by
    intro r hr
    obtain ⟨h1, h2, _⟩ := hI.rails_reg r hr
    exact ⟨hstfresh _ h1, hstfresh _ h2⟩
  have hNs : ∀ n ∈ N, n ≠ s := fun n hn => (hNmem n hn).2.1
  have hstar := star_reach st R s N hiso hNs hRrails
  have hmono : ∀ {a b}, Reach st a b → Reach R a b :=
    fun hr => reach_mono st R (fun r hr2 => by rw [hRrails]; exact List.mem_append_left _ hr2) hr
  have hreachFR : ∀ a b, Reach F a b ↔ Reach R a b :=
    reach_eq_of_rails F R (mergeClusters_rails R E)
  have hmemst_of_reach : ∀ a n, n ∈ st.stations → Reach st a n → a ∈ st.stations := by
    intro a n hn hr
    rcases (Relation.ReflTransGen.cases_head hr) with rfl | ⟨c, hc, _⟩
    · exact hn
    · rcases hc with hc | hc
      · exact (hI.rails_reg _ hc).1
      · exact (hI.rails_reg _ hc).2.1
  have htouch_U : ∀ a, (∃ n ∈ N, Reach st a n) →
      a ∈ st.stations ∧ ∃ c ∈ E, st.clusterOf a = some c := by
    rintro a ⟨n, hn, hr⟩
    obtain ⟨hnst, _, c, hcE, hnc⟩ := hNmem n hn
    have ha := hmemst_of_reach a n hnst hr
    refine ⟨ha, c, hcE, ?_⟩
    rw [(hI.ptr_reach a ha n hnst).mpr hr, hnc]
  have hU_to_s : ∀ a, (a = s ∨ (a ∈ st.stations ∧ ∃ c ∈ E, st.clusterOf a = some c)) →
      Reach R a s := by
    rintro a (rfl | ⟨ha, c, hcE, hac⟩)
    · exact Relation.ReflTransGen.refl
    · obtain ⟨n, hn, hnc⟩ := (hE c).mp hcE
      have hnst := (hNmem n hn).1
      have hreach_an : Reach st a n := (hI.ptr_reach a ha n hnst).mp (by rw [hac, hnc])
      refine Relation.ReflTransGen.tail (hmono hreach_an) ?_
      exact Or.inr (by rw [hRrails]; exact List.mem_append_right _ (List.mem_map.mpr ⟨n, hn, rfl⟩))
  have hs_to_U : ∀ b, Reach R s b →
      (b = s ∨ (b ∈ st.stations ∧ ∃ c ∈ E, st.clusterOf b = some c)) := by
    intro b hr
    rcases (hstar s b hr).1 rfl with rfl | htouch
    · exact Or.inl rfl
    · exact Or.inr (htouch_U b htouch)
  constructor
  · intro x hx
    rw [hptrF x]
    by_cases hU : x = s ∨ (x ∈ st.stations ∧ ∃ c ∈ E, st.clusterOf x = some c)
    · rw [if_pos hU]
      exact ⟨m0, rfl⟩
    · rw [if_neg hU]
      push_neg at hU
      exact hI.ptr_some x (((hmemF x).mp hx).resolve_right hU.1)
  · intro c hc t
    obtain ⟨u, hu, huc⟩ := hc
    by_cases hcm : c = m0
    · subst hcm
      rw [hsetsF_m t, hptrF t]
      constructor
      · intro hU
        refine ⟨?_, by rw [if_pos hU]⟩
        rcases hU with rfl | ⟨ht, _⟩
        · exact (hmemF t).mpr (Or.inr rfl)
        · exact (hmemF t).mpr (Or.inl ht)
      · rintro ⟨hts, htp⟩
        by_cases hU : t = s ∨ (t ∈ st.stations ∧ ∃ c2 ∈ E, st.clusterOf t = some c2)
        · exact hU
        · rw [if_neg hU] at htp
          exact absurd (hI.ptr_lt t m0 htp) (lt_irrefl m0)
    · rw [hptrF u] at huc
      have hUu : ¬ (u = s ∨ (u ∈ st.stations ∧ ∃ c2 ∈ E, st.clusterOf u = some c2)) := by
        intro hU
        rw [if_pos hU] at huc
        exact hcm (Option.some_inj.mp huc).symm
      rw [if_neg hUu] at huc
      push_neg at hUu
      have hust : u ∈ st.stations := ((hmemF u).mp hu).resolve_right hUu.1
      have hcE : ¬ c ∈ E := by
        intro hcEmem
        exact absurd (hUu.2 hust c hcEmem) (fun h => h huc)
      have hsetsFc : F.clusterSets c = st.clusterSets c := by
        rw [hsetsF_o c hcm, hW.sets_other c hcE, hbsets]
      rw [hsetsFc, hI.members_iff c ⟨u, hust, huc⟩ t, hptrF t]
      constructor
      · rintro ⟨hts, htp⟩
        have hUt : ¬ (t = s ∨ (t ∈ st.stations ∧ ∃ c2 ∈ E, st.clusterOf t = some c2)) := by
          rintro (rfl | ⟨_, c2, hc2, htp2⟩)
          · exact hfs hts
          · rw [htp] at htp2
            exact hcE ((Option.some_inj.mp htp2) ▸ hc2)
        exact ⟨(hmemF t).mpr (Or.inl hts), by rw [if_neg hUt]; exact htp⟩
      · rintro ⟨hts, htp⟩
        by_cases hUt : t = s ∨ (t ∈ st.stations ∧ ∃ c2 ∈ E, st.clusterOf t = some c2)
        · rw [if_pos hUt] at htp
          exact absurd (Option.some_inj.mp htp).symm hcm
        · rw [if_neg hUt] at htp
          push_neg at hUt
          exact ⟨((hmemF t).mp hts).resolve_right hUt.1, htp⟩
  · intro r hr
    rw [hrailsF] at hr
    rcases List.mem_append.mp hr with hr | hr
    · obtain ⟨h1, h2, h3⟩ := hI.rails_reg r hr
      exact ⟨(hmemF _).mpr (Or.inl h1), (hmemF _).mpr (Or.inl h2), h3⟩
    · obtain ⟨n, hn, heq⟩ := List.mem_map.mp hr
      subst heq
      exact ⟨(hmemF _).mpr (Or.inr rfl), (hmemF _).mpr (Or.inl (hNmem n hn).1),
        fun h => (hNmem n hn).2.1 h.symm⟩
  · intro a ha b hb
    rw [hptrF a, hptrF b, hreachFR]
    by_cases hUa : a = s ∨ (a ∈ st.stations ∧ ∃ c ∈ E, st.clusterOf a = some c)
    · by_cases hUb : b = s ∨ (b ∈ st.stations ∧ ∃ c ∈ E, st.clusterOf b = some c)
      · rw [if_pos hUa, if_pos hUb]
        constructor
        · intro _
          exact Relation.ReflTransGen.trans (hU_to_s a hUa) (reach_symm R (hU_to_s b hUb))
        · intro _
          rfl
      · rw [if_pos hUa, if_neg hUb]
        constructor
        · intro he
          exfalso
          push_neg at hUb
          have hbst : b ∈ st.stations := ((hmemF b).mp hb).resolve_right hUb.1
          obtain ⟨c, hc⟩ := hI.ptr_some b hbst
          rw [hc] at he
          have := hI.ptr_lt b c hc
          rw [← Option.some_inj.mp he] at this
          exact absurd this (lt_irrefl m0)
        · intro hr
          exfalso
          have hsb : Reach R s b :=
            Relation.ReflTransGen.trans (reach_symm R (hU_to_s a hUa)) hr
          exact hUb (hs_to_U b hsb)
    · by_cases hUb : b = s ∨ (b ∈ st.stations ∧ ∃ c ∈ E, st.clusterOf b = some c)
      · rw [if_neg hUa, if_pos hUb]
        constructor
        · intro he
          exfalso
          push_neg at hUa
          have hast : a ∈ st.stations := ((hmemF a).mp ha).resolve_right hUa.1
          have := hI.ptr_lt a m0 he
          exact absurd this (lt_irrefl m0)
        · intro hr
          exfalso
          have hsa : Reach R s a :=
            Relation.ReflTransGen.trans (reach_symm R (hU_to_s b hUb)) (reach_symm R hr)
          exact hUa (hs_to_U a hsa)
      · rw [if_neg hUa, if_neg hUb]
        push_neg at hUa
        push_neg at hUb
        have hast : a ∈ st.stations := ((hmemF a).mp ha).resolve_right hUa.1
        have hbst : b ∈ st.stations := ((hmemF b).mp hb).resolve_right hUb.1
        rw [hI.ptr_reach a hast b hbst]
        constructor
        · exact fun hr => hmono hr
        · intro hr
          rcases (hstar a b hr).2.2 hUa.1 hUb.1 with hr2 | ⟨hta, htb⟩
          · exact hr2
          · obtain ⟨ha2, c, hcE, hac⟩ := htouch_U a hta
            exact absurd hac (hUa.2 ha2 c hcE)
  · intro x c hc
    rw [hptrF x] at hc
    rw [hnextF]
    by_cases hU : x = s ∨ (x ∈ st.stations ∧ ∃ c2 ∈ E, st.clusterOf x = some c2)
    · rw [if_pos hU] at hc
      rw [← Option.some_inj.mp hc]
      omega
    · rw [if_neg hU] at hc
      have := hI.ptr_lt x c hc
      omega
  · intro c
    exact hFnd (hW.sets_nodup (fun c2 => hI.members_nodup c2)) c

theorem connectStation_inv (pathLen : ℕ → ℕ → ℕ) (st : RailState) (s : ℕ)
    (cands : List (ℕ × ℕ)) (hI : Inv st) (hf : freshId st s) :
    Inv (connectStation pathLen st s cands) := by
  obtain ⟨hfs, hfptr, _⟩ := hf
  unfold connectStation connectToNearbyStations
  dsimp only
  obtain ⟨N, hW⟩ := connInv_fold (regState st s) pathLen s (sortByDist cands)
    (regState st s, []) [] (connInv_init (regState st s) s)
  rcases hres : (sortByDist cands).foldl (connectCandidate pathLen s)
      ({ st with stations := insertIfAbsent st.stations s }, []) with ⟨R, E⟩
  have hW2 : ConnInvW (regState st s) s (R, E) N := by
    rw [← hres]
    exact hW
  by_cases h1 : 1 < E.length
  · rw [if_pos h1]
    exact connect_case_many st s R N E hI hfs hW2 (by omega)
  · rw [if_neg h1]
    by_cases h0 : E.length = 0
    · rw [if_pos h0]
      rw [List.length_eq_zero] at h0
      subst h0
      exact connect_case_zero st s R N hI hfs hfptr hW2
    · rw [if_neg h0]
      have hone : E.length = 1 := by omega
      obtain ⟨c0, hc0⟩ := List.length_eq_one.mp hone
      subst hc0
      exact connect_case_one st s R N c0 hI hfs hW2

/-! Preservation of `Inv` by `removeStation`. -/

theorem list_eq_singleton_of (l : List ℕ) (u : ℕ) (hnd : l.Nodup) (hu : u ∈ l)
    (hall : ∀ x ∈ l, x = u) : l = [u] := by
  cases l with
  | nil => cases hu
  | cons hd tl =>
    have hhd : hd = u := hall hd (List.mem_cons_self _ _)
    subst hhd
    have htl : tl = [] := by
      rw [List.eq_nil_iff_forall_not_mem]
      intro x hx
      have := hall x (List.mem_cons_of_mem _ hx)
      subst this
      exact (List.nodup_cons.mp hnd).1 hx
    rw [htl]

theorem length_ne_one_of_two (l : List ℕ) (x y : ℕ) (hx : x ∈ l) (hy : y ∈ l)
    (hne : x ≠ y) : l.length ≠ 1 := by
  intro h
  obtain ⟨a, ha⟩ := List.length_eq_one.mp h
  subst ha
  rw [List.mem_singleton] at hx hy
  exact hne (hx.trans hy.symm)

theorem st3_rails_reg (st : RailState) (u : ℕ) (hI : Inv st) :
    ∀ r ∈ st.rails.filter fun r => decide (r.1 ≠ u) && decide (r.2 ≠ u),
      (r.1 ∈ st.stations ∧ r.1 ≠ u) ∧ (r.2 ∈ st.stations ∧ r.2 ≠ u) ∧ r.1 ≠ r.2 := by
  intro r hr
  obtain ⟨hrm, hcond⟩ := List.mem_filter.mp hr
  obtain ⟨h1, h2, h3⟩ := hI.rails_reg r hrm
  simp only [Bool.and_eq_true, decide_eq_true_eq] at hcond
  exact ⟨⟨h1, hcond.1⟩, ⟨h2, hcond.2⟩, h3⟩

theorem remove_case_isolated (st G : RailState) (u C : ℕ) (hI : Inv st)
    (hu : u ∈ st.stations) (hC : st.clusterOf u = some C)
    (hiso_u : ∀ x, ¬ adjacent st x u) (hsetsC : st.clusterSets C = [u])
    (hGst : ∀ x, x ∈ G.stations ↔ x ∈ st.stations ∧ x ≠ u)
    (hGrails : G.rails = st.rails)
    (hGptr : ∀ x, G.clusterOf x = if x = u then none else st.clusterOf x)
    (hGsets : ∀ c, G.clusterSets c = if c = C then [] else st.clusterSets c)
    (hGnext : G.nextCluster = st.nextCluster) :
    Inv G := by
  have hreachG : ∀ a b, Reach G a b ↔ Reach st a b := reach_eq_of_rails G st hGrails
  have hCpre : ∀ t, t ∈ st.stations → st.clusterOf t = some C → t = u := by
    intro t ht htc
    have : t ∈ st.clusterSets C := (hI.members_iff C ⟨u, hu, hC⟩ t).mpr ⟨ht, htc⟩
    rw [hsetsC] at this
    exact List.mem_singleton.mp this
  constructor
  · intro x hx
    obtain ⟨hxs, hxu⟩ := (hGst x).mp hx
    obtain ⟨c, hc⟩ := hI.ptr_some x hxs
    exact ⟨c, by rw [hGptr, if_neg hxu, hc]⟩
  · intro c hc t
    obtain ⟨v, hv, hvc⟩ := hc
    obtain ⟨hvs, hvu⟩ := (hGst v).mp hv
    rw [hGptr, if_neg hvu] at hvc
    have hcC : c ≠ C := by
      intro he
      exact hvu (hCpre v hvs (he ▸ hvc))
    rw [hGsets c, if_neg hcC, hI.members_iff c ⟨v, hvs, hvc⟩ t]
    constructor
    · rintro ⟨hts, htp⟩
      have htu : t ≠ u := by
        intro he
        rw [he, hC] at htp
        exact hcC (Option.some_inj.mp htp).symm
      exact ⟨(hGst t).mpr ⟨hts, htu⟩, by rw [hGptr, if_neg htu, htp]⟩
    · rintro ⟨hts, htp⟩
      obtain ⟨hts2, htu⟩ := (hGst t).mp hts
      rw [hGptr, if_neg htu] at htp
      exact ⟨hts2, htp⟩
  · intro r hr
    rw [hGrails] at hr
    obtain ⟨h1, h2, h3⟩ := hI.rails_reg r hr
    have hr1u : r.1 ≠ u := fun he => hiso_u r.2 (Or.inr (he ▸ hr))
    have hr2u : r.2 ≠ u := fun he => hiso_u r.1 (Or.inl (he ▸ hr))
    exact ⟨(hGst _).mpr ⟨h1, hr1u⟩, (hGst _).mpr ⟨h2, hr2u⟩, h3⟩
  · intro a ha b hb
    obtain ⟨has, hau⟩ := (hGst a).mp ha
    obtain ⟨hbs, hbu⟩ := (hGst b).mp hb
    rw [hGptr a, hGptr b, if_neg hau, if_neg hbu, hreachG]
    exact hI.ptr_reach a has b hbs
  · intro x c hc
    rw [hGptr] at hc
    rw [hGnext]
    by_cases hx : x = u
    · rw [if_pos hx] at hc
      cases hc
    · rw [if_neg hx] at hc
      exact hI.ptr_lt x c hc
  · intro c
    rw [hGsets c]
    split
    · exact List.nodup_nil
    · exact hI.members_nodup c

theorem adjacent_stations (st : RailState) (hI : Inv st) {a b : ℕ}
    (h : adjacent st a b) : a ∈ st.stations ∧ b ∈ st.stations ∧ a ≠ b := by
  rcases h with h | h
  · obtain ⟨h1, h2, h3⟩ := hI.rails_reg _ h
    exact ⟨h1, h2, h3⟩
  · obtain ⟨h1, h2, h3⟩ := hI.rails_reg _ h
    exact ⟨h2, h1, fun he => h3 he.symm⟩

theorem reach_pred (st : RailState) (P : ℕ → Prop)
    (hend : ∀ x y, adjacent st x y → P y) {a b : ℕ} (ha : P a)
    (h : Reach st a b) : P b := by
  rcases Relation.ReflTransGen.cases_tail h with h | ⟨c, _, hc⟩
  · rw [h]
    exact ha
  · exact hend c b hc

theorem remove_case_single (st G : RailState) (u C n1 : ℕ) (hI : Inv st)
    (hu : u ∈ st.stations) (hC : st.clusterOf u = some C)
    (hadj : adjacent st u n1) (huniq : ∀ x, adjacent st x u → x = n1)
    (hGst : ∀ x, x ∈ G.stations ↔ x ∈ st.stations ∧ x ≠ u)
    (hGrails : G.rails = st.rails.filter fun r => decide (r.1 ≠ u) && decide (r.2 ≠ u))
    (hGptr : ∀ x, G.clusterOf x = st.clusterOf x)
    (hGsets : ∀ c, G.clusterSets c =
      if c = C then (st.clusterSets C).filter (fun y => decide (y ≠ u))
      else st.clusterSets c)
    (hGnext : G.nextCluster = st.nextCluster) :
    Inv G := by
  have hreach_to : ∀ a, a ≠ u → Reach st a u → Reach G a n1 := by
    intro a hau hr
    rcases reach_remove_cover st G u hGrails a hr with rfl | ⟨n, hn, hrn⟩
    · exact absurd rfl hau
    · exact (huniq n hn) ▸ hrn
  have hreach_equiv : ∀ a b, a ≠ u → b ≠ u → (Reach st a b ↔ Reach G a b) := by
    intro a b hau hbu
    constructor
    · intro hr
      by_cases hru : Reach st a u
      · have hrbu : Reach st b u :=
          Relation.ReflTransGen.trans (reach_symm st hr) hru
        exact Relation.ReflTransGen.trans (hreach_to a hau hru)
          (reach_symm G (hreach_to b hbu hrbu))
      · exact reach_remove_avoid st G u hGrails a b hr hru
    · exact reach_of_filter st G u hGrails
  constructor
  · intro x hx
    obtain ⟨hxs, _⟩ := (hGst x).mp hx
    obtain ⟨c, hc⟩ := hI.ptr_some x hxs
    exact ⟨c, by rw [hGptr]; exact hc⟩
  · intro c hc t
    obtain ⟨v, hv, hvc⟩ := hc
    obtain ⟨hvs, hvu⟩ := (hGst v).mp hv
    rw [hGptr] at hvc
    have hlive : ∃ s ∈ st.stations, st.clusterOf s = some c := ⟨v, hvs, hvc⟩
    rw [hGsets c]
    by_cases hcC : c = C
    · subst hcC
      rw [if_pos rfl, List.mem_filter, hI.members_iff c hlive t, hGst t, hGptr t]
      simp only [decide_eq_true_eq]
      constructor
      · rintro ⟨⟨h1, h2⟩, h3⟩
        exact ⟨⟨h1, h3⟩, h2⟩
      · rintro ⟨⟨h1, h3⟩, h2⟩
        exact ⟨⟨h1, h2⟩, h3⟩
    · rw [if_neg hcC, hI.members_iff c hlive t, hGst t, hGptr t]
      constructor
      · rintro ⟨h1, h2⟩
        refine ⟨⟨h1, ?_⟩, h2⟩
        intro he
        rw [he, hC] at h2
        exact hcC (Option.some_inj.mp h2).symm
      · rintro ⟨⟨h1, _⟩, h2⟩
        exact ⟨h1, h2⟩
  · intro r hr
    rw [hGrails] at hr
    obtain ⟨⟨h1s, h1u⟩, ⟨h2s, h2u⟩, hne⟩ := st3_rails_reg st u hI r hr
    exact ⟨(hGst _).mpr ⟨h1s, h1u⟩, (hGst _).mpr ⟨h2s, h2u⟩, hne⟩
  · intro a ha b hb
    obtain ⟨has, hau⟩ := (hGst a).mp ha
    obtain ⟨hbs, hbu⟩ := (hGst b).mp hb
    rw [hGptr a, hGptr b, hI.ptr_reach a has b hbs]
    exact hreach_equiv a b hau hbu
  · intro x c hc
    rw [hGptr] at hc
    rw [hGnext]
    exact hI.ptr_lt x c hc
  · intro c
    rw [hGsets c]
    split
    · exact (hI.members_nodup C).filter _
    · exact hI.members_nodup c

theorem neighborsOf_congr (a b : RailState) (h : a.rails = b.rails) :
    neighborsOf a = neighborsOf b := by
  funext x
  unfold neighborsOf
  rw [h]

theorem computeCluster_congr (a b : RailState) (h : a.rails = b.rails) (n : ℕ) :
    computeCluster a n = computeCluster b n := by
  unfold computeCluster bfsFuel
  rw [neighborsOf_congr a b h, h]

/-- Loop invariant of the hub branch of `removeStation`: after the cluster
recomputation has processed the former neighbours in `done`, every station
connected (in the rail-deleted state `base`) to a processed neighbour sits
in a freshly allocated cluster whose member set is exactly its connected
component, while every other station still carries its original cluster
data. -/
structure HubInv (base : RailState) (done : List ℕ) (a : RailState) : Prop where
  rails_eq : a.rails = base.rails
  stations_eq : a.stations = base.stations
  next_ge : base.nextCluster ≤ a.nextCluster
  covered : ∀ x, (∃ n ∈ done, Reach base n x) →
    ∃ c, a.clusterOf x = some c ∧ base.nextCluster ≤ c ∧ c < a.nextCluster
      ∧ (∀ y, y ∈ a.clusterSets c ↔ Reach base x y)
      ∧ (∀ y, Reach base x y → a.clusterOf y = a.clusterOf x)
  uncovered : ∀ x, ¬ (∃ n ∈ done, Reach base n x) → a.clusterOf x = base.clusterOf x
  low_sets : ∀ c, c < base.nextCluster → a.clusterSets c = base.clusterSets c
  sets_nodup : ∀ c, (a.clusterSets c).Nodup

theorem hubInv_init (base : RailState) (hnd : ∀ c, (base.clusterSets c).Nodup) :
    HubInv base [] base :=
  ⟨rfl, rfl, le_refl _, fun _ hx => by simp at hx, fun _ _ => rfl,
    fun _ _ => rfl, hnd⟩

theorem hubInv_step (base : RailState) (hreg : ∀ r ∈ base.rails, r.1 ≠ r.2)
    (done : List ℕ) (a : RailState) (n : ℕ) (hInv : HubInv base done a) :
    HubInv base (done ++ [n]) (newClusterWith a (computeCluster a n)) := by
  obtain ⟨hrails, hstations, hnext, hcov, huncov, hlow, hnd⟩ := hInv
  have hrega : ∀ r ∈ a.rails, r.1 ≠ r.2 := by
    rw [hrails]
    exact hreg
  have hK : ∀ t, t ∈ computeCluster a n ↔ Reach base n t := by
    intro t
    rw [computeCluster_spec a hrega n t]
    exact reach_eq_of_rails a base hrails n t
  set K := computeCluster a n with hKdef
  have hframe := newClusterWith_frame a K
  have hrailsK := newClusterWith_rails a K
  have hnextK : (newClusterWith a K).nextCluster = a.nextCluster + 1 := hframe.2
  refine ⟨?_, ?_, ?_, ?_, ?_, ?_, ?_⟩
  · rw [hrailsK]
    exact hrails
  · rw [hframe.1]
    exact hstations
  · rw [hnextK]
    omega
  · intro x hx
    by_cases hnx : Reach base n x
    · refine ⟨a.nextCluster, ?_, by omega, ?_, ?_, ?_⟩
      · rw [newClusterWith_clusterOf, if_pos ((hK x).mpr hnx)]
      · rw [hnextK]
        omega
      · intro y
        rw [newClusterWith_sets_new a K y, hK y]
        constructor
        · intro h
          exact Relation.ReflTransGen.trans (reach_symm base hnx) h
        · intro h
          exact Relation.ReflTransGen.trans hnx h
      · intro y hy
        have hny : Reach base n y := Relation.ReflTransGen.trans hnx hy
        rw [newClusterWith_clusterOf, if_pos ((hK y).mpr hny),
          newClusterWith_clusterOf, if_pos ((hK x).mpr hnx)]
    · have hxdone : ∃ m ∈ done, Reach base m x := by
        obtain ⟨m, hm, hmx⟩ := hx
        rcases List.mem_append.mp hm with hm | hm
        · exact ⟨m, hm, hmx⟩
        · rw [List.mem_singleton] at hm
          exact absurd (hm ▸ hmx) hnx
      obtain ⟨c, hcptr, hge, hlt, hsets, hcong⟩ := hcov x hxdone
      have hxK : ¬ x ∈ K := fun h => hnx ((hK x).mp h)
      refine ⟨c, ?_, hge, ?_, ?_, ?_⟩
      · rw [newClusterWith_clusterOf, if_neg hxK]
        exact hcptr
      · rw [hnextK]
        omega
      · intro y
        rw [newClusterWith_sets_other a K c (by omega)]
        exact hsets y
      · intro y hy
        have hyK : ¬ y ∈ K := by
          intro h
          exact hnx (Relation.ReflTransGen.trans ((hK y).mp h) (reach_symm base hy))
        rw [newClusterWith_clusterOf, if_neg hyK,
          newClusterWith_clusterOf, if_neg hxK]
        exact hcong y hy
  · intro x hx
    have hxdone : ¬ ∃ m ∈ done, Reach base m x := by
      rintro ⟨m, hm, hmx⟩
      exact hx ⟨m, List.mem_append_left _ hm, hmx⟩
    have hnx : ¬ Reach base n x := fun h =>
      hx ⟨n, List.mem_append_right _ (List.mem_singleton_self n), h⟩
    have hxK : ¬ x ∈ K := fun h => hnx ((hK x).mp h)
    rw [newClusterWith_clusterOf, if_neg hxK]
    exact huncov x hxdone
  · intro c hc
    rw [newClusterWith_sets_other a K c (by omega)]
    exact hlow c hc
  · exact newClusterWith_nodup a K hnd

theorem hubInv_fold (base : RailState) (hreg : ∀ r ∈ base.rails, r.1 ≠ r.2) :
    ∀ (todo done : List ℕ) (a : RailState), HubInv base done a →
      HubInv base (done ++ todo)
        (todo.foldl (fun a n => newClusterWith a (computeCluster a n)) a) := by
  intro todo
  induction todo with
  | nil =>
    intro done a h
    rw [List.foldl_nil, List.append_nil]
    exact h
  | cons hd tl ih =>
    intro done a h
    rw [List.foldl_cons]
    have h3 := ih (done ++ [hd]) _ (hubInv_step base hreg done a hd h)
    rw [List.append_assoc] at h3
    simp only [List.singleton_append] at h3
    exact h3

theorem remove_case_hub (st st3 : RailState) (u C : ℕ) (N : List ℕ) (hI : Inv st)
    (hu : u ∈ st.stations) (hC : st.clusterOf u = some C)
    (hN : ∀ n, n ∈ N ↔ adjacent st u n)
    (hSst : ∀ x, x ∈ st3.stations ↔ x ∈ st.stations ∧ x ≠ u)
    (hSrails : st3.rails = st.rails.filter fun r => decide (r.1 ≠ u) && decide (r.2 ≠ u))
    (hSptr : ∀ x, st3.clusterOf x = st.clusterOf x)
    (hSsets : ∀ c, st3.clusterSets c = st.clusterSets c)
    (hSnext : st3.nextCluster = st.nextCluster) :
    Inv (N.foldl (fun a n => newClusterWith a (computeCluster a n)) st3) := by
  have hreg3 : ∀ r ∈ st3.rails, r.1 ≠ r.2 := by
    rw [hSrails]
    intro r hr
    exact (hI.rails_reg r (List.mem_filter.mp hr).1).2.2
  have hnd3 : ∀ c, (st3.clusterSets c).Nodup := by
    intro c
    rw [hSsets]
    exact hI.members_nodup c
  have hHub := hubInv_fold st3 hreg3 N [] st3 (hubInv_init st3 hnd3)
  rw [List.nil_append] at hHub
  obtain ⟨hGrails, hGst, hGnext, hGcov, hGuncov, hGlow, hGnd⟩ := hHub
  set G := N.foldl (fun a n => newClusterWith a (computeCluster a n)) st3 with hGdef
  have hNmem : ∀ n ∈ N, n ∈ st.stations ∧ n ≠ u := by
    intro n hn
    obtain ⟨_, hns, hun⟩ := adjacent_stations st hI ((hN n).mp hn)
    exact ⟨hns, fun he => hun he.symm⟩
  have hptrN : ∀ n ∈ N, st.clusterOf n = some C := by
    intro n hn
    have hns := (hNmem n hn).1
    have := (hI.ptr_reach u hu n hns).mpr
      (Relation.ReflTransGen.single ((hN n).mp hn))
    rw [hC] at this
    exact this.symm
  have hiso3 : ∀ x, ¬ adjacent st3 x u := by
    intro x h
    rcases h with h | h
    · rw [hSrails] at h
      have := (List.mem_filter.mp h).2
      simp only [Bool.and_eq_true, decide_eq_true_eq] at this
      exact this.2 rfl
    · rw [hSrails] at h
      have := (List.mem_filter.mp h).2
      simp only [Bool.and_eq_true, decide_eq_true_eq] at this
      exact this.1 rfl
  have hcov_notu : ¬ ∃ n ∈ N, Reach st3 n u := by
    rintro ⟨n, hn, hr⟩
    exact (hNmem n hn).2 (reach_isolated st3 u hiso3 n hr)
  have hcov_stations : ∀ x, (∃ n ∈ N, Reach st3 n x) → x ∈ st3.stations := by
    rintro x ⟨n, hn, hr⟩
    refine reach_pred st3 (fun y => y ∈ st3.stations) ?_ ?_ hr
    · intro a b hab
      rcases hab with hab | hab
      · rw [hSrails] at hab
        obtain ⟨hm, hcond⟩ := List.mem_filter.mp hab
        simp only [Bool.and_eq_true, decide_eq_true_eq] at hcond
        exact (hSst _).mpr ⟨(hI.rails_reg _ hm).2.1, hcond.2⟩
      · rw [hSrails] at hab
        obtain ⟨hm, hcond⟩ := List.mem_filter.mp hab
        simp only [Bool.and_eq_true, decide_eq_true_eq] at hcond
        exact (hSst _).mpr ⟨(hI.rails_reg _ hm).1, hcond.1⟩
    · exact (hSst n).mpr (hNmem n hn)
  have hcov_reach : ∀ x, (∃ n ∈ N, Reach st3 n x) → ∀ y, Reach st3 x y →
      ∃ n ∈ N, Reach st3 n y := by
    rintro x ⟨n, hn, hnx⟩ y hxy
    exact ⟨n, hn, Relation.ReflTransGen.trans hnx hxy⟩
  have hC_covered : ∀ t, t ∈ st.stations → t ≠ u → st.clusterOf t = some C →
      ∃ n ∈ N, Reach st3 n t := by
    intro t ht htu htC
    have hru : Reach st t u := by
      refine reach_symm st ((hI.ptr_reach u hu t ht).mp ?_)
      rw [hC, htC]
    rcases reach_remove_cover st st3 u hSrails t hru with rfl | ⟨n, hn, hrn⟩
    · exact absurd rfl htu
    · exact ⟨n, (hN n).mpr hn.symm, reach_symm st3 hrn⟩
  have hcov_ptrC : ∀ t, t ∈ st.stations → (∃ n ∈ N, Reach st3 n t) →
      st.clusterOf t = some C := by
    rintro t ht ⟨n, hn, hnt⟩
    have hns := (hNmem n hn).1
    have := (hI.ptr_reach n hns t ht).mpr (reach_of_filter st st3 u hSrails hnt)
    rw [hptrN n hn] at this
    exact this.symm
  have huncov_reach : ∀ a b, a ≠ u → ¬ (∃ n ∈ N, Reach st3 n a) →
      Reach st a b → Reach st3 a b := by
    intro a b hau hnc hr
    by_cases hru : Reach st a u
    · exfalso
      rcases reach_remove_cover st st3 u hSrails a hru with rfl | ⟨n, hn, hrn⟩
      · exact hau rfl
      · exact hnc ⟨n, (hN n).mpr hn.symm, reach_symm st3 hrn⟩
    · exact reach_remove_avoid st st3 u hSrails a b hr hru
  have hreachG : ∀ x y, Reach G x y ↔ Reach st3 x y :=
    reach_eq_of_rails G st3 hGrails
  constructor
  · intro x hx
    rw [hGst] at hx
    by_cases hcx : ∃ n ∈ N, Reach st3 n x
    · obtain ⟨c, hc, _⟩ := hGcov x hcx
      exact ⟨c, hc⟩
    · rw [hGuncov x hcx, hSptr]
      exact hI.ptr_some x ((hSst x).mp hx).1
  · intro c hc t
    obtain ⟨v, hv, hvc⟩ := hc
    rw [hGst] at hv
    by_cases hcv : ∃ n ∈ N, Reach st3 n v
    · obtain ⟨cv, hpv, hgev, hltv, hsetsv, hcongv⟩ := hGcov v hcv
      have hccv : c = cv := by
        rw [hvc] at hpv
        exact Option.some_inj.mp hpv
      subst hccv
      constructor
      · intro hts
        have hrvt : Reach st3 v t := (hsetsv t).mp hts
        have hct : ∃ n ∈ N, Reach st3 n t := hcov_reach v hcv t hrvt
        refine ⟨by rw [hGst]; exact hcov_stations t hct, ?_⟩
        rw [hcongv t hrvt, hpv]
      · rintro ⟨hts, htp⟩
        by_cases hct : ∃ n ∈ N, Reach st3 n t
        · obtain ⟨ct, hpt, hget, _, hsetst, _⟩ := hGcov t hct
          have hcct : ct = c := by
            rw [htp] at hpt
            exact (Option.some_inj.mp hpt).symm
          rw [← hcct]
          exact (hsetst t).mpr Relation.ReflTransGen.refl
        · exfalso
          rw [hGuncov t hct, hSptr] at htp
          have := hI.ptr_lt t c htp
          rw [hSnext] at hgev
          omega
    · have hvptr : st.clusterOf v = some c := by
        rw [hGuncov v hcv, hSptr] at hvc
        exact hvc
      have hvs : v ∈ st.stations := ((hSst v).mp hv).1
      have hvu : v ≠ u := ((hSst v).mp hv).2
      have hcC : c ≠ C := by
        intro he
        exact hcv (hC_covered v hvs hvu (he ▸ hvptr))
      have hclt : c < st.nextCluster := hI.ptr_lt v c hvptr
      have hlive : ∃ s ∈ st.stations, st.clusterOf s = some c := ⟨v, hvs, hvptr⟩
      rw [hGlow c (by rw [hSnext]; exact hclt), hSsets,
        hI.members_iff c hlive t]
      constructor
      · rintro ⟨hts, htp⟩
        have htu : t ≠ u := by
          intro he
          rw [he, hC] at htp
          exact hcC (Option.some_inj.mp htp).symm
        have hct : ¬ ∃ n ∈ N, Reach st3 n t := by
          intro hct
          exact hcC ((Option.some_inj.mp ((hcov_ptrC t hts hct).symm.trans htp)).symm)
        refine ⟨by rw [hGst]; exact (hSst t).mpr ⟨hts, htu⟩, ?_⟩
        rw [hGuncov t hct, hSptr]
        exact htp
      · rintro ⟨hts, htp⟩
        rw [hGst] at hts
        by_cases hct : ∃ n ∈ N, Reach st3 n t
        · exfalso
          obtain ⟨ct, hpt, hget, _, _, _⟩ := hGcov t hct
          rw [htp] at hpt
          have := Option.some_inj.mp hpt
          rw [hSnext] at hget
          omega
        · rw [hGuncov t hct, hSptr] at htp
          exact ⟨((hSst t).mp hts).1, htp⟩
  · intro r hr
    rw [hGrails, hSrails] at hr
    obtain ⟨⟨h1s, h1u⟩, ⟨h2s, h2u⟩, hne⟩ := st3_rails_reg st u hI r hr
    exact ⟨by rw [hGst]; exact (hSst _).mpr ⟨h1s, h1u⟩,
      by rw [hGst]; exact (hSst _).mpr ⟨h2s, h2u⟩, hne⟩
  · intro a ha b hb
    rw [hGst] at ha hb
    rw [hreachG]
    by_cases hca : ∃ n ∈ N, Reach st3 n a
    · obtain ⟨ca, hpa, hgea, _, hsetsa, hconga⟩ := hGcov a hca
      constructor
      · intro hpab
        by_cases hcb : ∃ n ∈ N, Reach st3 n b
        · obtain ⟨cb, hpb, _, _, hsetsb, _⟩ := hGcov b hcb
          have hcab : ca = cb := by
            rw [hpa, hpb] at hpab
            exact Option.some_inj.mp hpab
          refine (hsetsa b).mp ?_
          rw [hcab]
          exact (hsetsb b).mpr Relation.ReflTransGen.refl
        · exfalso
          rw [hGuncov b hcb, hSptr] at hpab
          rw [hpa] at hpab
          obtain ⟨cb, hcb2⟩ := hI.ptr_some b ((hSst b).mp hb).1
          rw [hcb2] at hpab
          have := hI.ptr_lt b cb hcb2
          have := Option.some_inj.mp hpab
          rw [hSnext] at hgea
          omega
      · intro hr
        exact (hconga b hr).symm
    · by_cases hcb : ∃ n ∈ N, Reach st3 n b
      · obtain ⟨cb, hpb, hgeb, _, _, hcongb⟩ := hGcov b hcb
        constructor
        · intro hpab
          exfalso
          rw [hGuncov a hca, hSptr] at hpab
          rw [hpb] at hpab
          obtain ⟨ca, hca2⟩ := hI.ptr_some a ((hSst a).mp ha).1
          rw [hca2] at hpab
          have := hI.ptr_lt a ca hca2
          have := Option.some_inj.mp hpab
          rw [hSnext] at hgeb
          omega
        · intro hr
          exact absurd (hcov_reach b hcb a (reach_symm st3 hr)) hca
      · rw [hGuncov a hca, hGuncov b hcb, hSptr, hSptr]
        have has := ((hSst a).mp ha).1
        have hbs := ((hSst b).mp hb).1
        rw [hI.ptr_reach a has b hbs]
        constructor
        · exact huncov_reach a b ((hSst a).mp ha).2 hca
        · exact fun hr => reach_of_filter st st3 u hSrails hr
  · intro x c hc
    by_cases hcx : ∃ n ∈ N, Reach st3 n x
    · obtain ⟨cx, hpx, _, hltx, _, _⟩ := hGcov x hcx
      rw [hc] at hpx
      have := Option.some_inj.mp hpx
      omega
    · rw [hGuncov x hcx, hSptr] at hc
      have := hI.ptr_lt x c hc
      rw [hSnext] at hGnext
      omega
  · exact hGnd

theorem removeStation_inv (st : RailState) (u : ℕ) (hI : Inv st) :
    Inv (removeStation st u) := by
  by_cases hu : u ∈ st.stations
  · obtain ⟨C, hC⟩ := hI.ptr_some u hu
    have hreg : ∀ r ∈ st.rails, r.1 ≠ r.2 := fun r hr => (hI.rails_reg r hr).2.2
    have huSets : u ∈ st.clusterSets C :=
      (hI.members_iff C ⟨u, hu, hC⟩ u).mpr ⟨hu, hC⟩
    unfold removeStation
    rw [if_neg (not_not_intro hu)]
    dsimp only
    rw [hC]
    dsimp only
    rcases hn : neighborsOf st u with _ | ⟨n1, ntl⟩
    · -- no former neighbours: the cluster was the singleton [u] and is deleted
      have hiso : ∀ x, ¬ adjacent st x u := by
        intro x hx
        have hmem : x ∈ neighborsOf st u :=
          (neighborsOf_iff_adjacent st hreg u x).mpr hx.symm
        rw [hn] at hmem
        cases hmem
      have hsetsC : st.clusterSets C = [u] := by
        refine list_eq_singleton_of _ _ (hI.members_nodup C) huSets ?_
        intro x hx
        obtain ⟨hxs, hxc⟩ := (hI.members_iff C ⟨u, hu, hC⟩ x).mp hx
        refine reach_isolated st u hiso x (reach_symm st ((hI.ptr_reach u hu x hxs).mp ?_))
        rw [hC, hxc]
      have hlen1 : (st.clusterSets C).length = 1 := by
        rw [hsetsC]
        rfl
      rw [if_pos hlen1]
      set st1 : RailState :=
        { stations := st.stations,
          rails := List.filter (fun r => decide (r.1 ≠ u) && decide (r.2 ≠ u)) st.rails,
          clusterOf := st.clusterOf, clusterSets := st.clusterSets,
          nextCluster := st.nextCluster } with hst1
      obtain ⟨hds, hdr, hdn, hdptr, hdsets⟩ := deleteCluster_spec st1 C
      have h1sets : st1.clusterSets C = [u] := hsetsC
      have hdelptr : (deleteCluster st1 C).clusterOf u = none := by
        rw [hdptr u, h1sets, if_pos (List.mem_singleton_self u)]
      rw [hdelptr]
      dsimp only
      have hfil : List.filter (fun r => decide (r.1 ≠ u) && decide (r.2 ≠ u)) st.rails
          = st.rails := by
        rw [List.filter_eq_self]
        intro r hr
        simp only [Bool.and_eq_true, decide_eq_true_eq]
        refine ⟨fun he => hiso r.2 (Or.inr ?_), fun he => hiso r.1 (Or.inl ?_)⟩
        · rw [← he]
          exact hr
        · rw [← he]
          exact hr
      refine remove_case_isolated st _ u C hI hu hC hiso hsetsC ?_ ?_ ?_ ?_ ?_
      · intro x
        dsimp only
        rw [List.mem_filter, hds]
        simp only [decide_eq_true_eq]
      · dsimp only
        rw [hdr]
        exact hfil
      · intro x
        dsimp only
        rw [hdptr x, h1sets]
        by_cases hx : x = u
        · rw [if_pos (List.mem_singleton.mpr hx), if_pos hx]
        · rw [if_neg (fun h => hx (List.mem_singleton.mp h)), if_neg hx]
      · intro c
        dsimp only
        rw [hdsets c]
      · dsimp only
        rw [hdn]
    · -- at least one former neighbour: the old cluster has at least two members
      have hadj1 : adjacent st u n1 := by
        refine (neighborsOf_iff_adjacent st hreg u n1).mp ?_
        rw [hn]
        exact List.mem_cons_self _ _
      obtain ⟨_, hn1s, hun1⟩ := adjacent_stations st hI hadj1
      have hptrn1 : st.clusterOf n1 = some C := by
        have := (hI.ptr_reach u hu n1 hn1s).mpr (Relation.ReflTransGen.single hadj1)
        rw [hC] at this
        exact this.symm
      have hn1Sets : n1 ∈ st.clusterSets C :=
        (hI.members_iff C ⟨u, hu, hC⟩ n1).mpr ⟨hn1s, hptrn1⟩
      have hlenne : ¬ (st.clusterSets C).length = 1 :=
        length_ne_one_of_two _ u n1 huSets hn1Sets hun1
      rw [if_neg hlenne]
      dsimp only
      rw [hC]
      dsimp only
      rcases ntl with _ | ⟨n2, rest⟩
      · -- exactly one neighbour: removed from its cluster's member set
        rw [if_pos (by simp)]
        have huniq : ∀ x, adjacent st x u → x = n1 := by
          intro x hx
          have hmem : x ∈ neighborsOf st u :=
            (neighborsOf_iff_adjacent st hreg u x).mpr hx.symm
          rw [hn] at hmem
          exact List.mem_singleton.mp hmem
        refine remove_case_single st _ u C n1 hI hu hC hadj1 huniq ?_ ?_ ?_ ?_ ?_
        · intro x
          rw [(clusterRemoveStation_spec _ C u).1]
          dsimp only
          rw [List.mem_filter]
          simp only [decide_eq_true_eq]
        · rfl
        · intro x
          rfl
        · intro c
          rfl
        · rfl
      · -- a hub: every former neighbour's cluster is recomputed by BFS
        rw [if_neg (by simp), if_pos (by simp)]
        refine remove_case_hub st _ u C (n1 :: n2 :: rest) hI hu hC ?_ ?_ ?_ ?_ ?_ ?_
        · intro n
          rw [← hn]
          exact neighborsOf_iff_adjacent st hreg u n
        · intro x
          dsimp only
          rw [List.mem_filter]
          simp only [decide_eq_true_eq]
        · rfl
        · intro x
          rfl
        · intro c
          rfl
        · rfl
  · unfold removeStation
    rw [if_pos hu]
    exact hI

/-! The public mutating entry points of `RailNetworkImpl`, as an operation
language, and the partition consistency property of §3 of the spec. -/

/-- One public mutating call on the rail network: `connectStation` (with its
tile-path oracle and the `nearbyUnits` candidate list) or `removeStation`. -/
inductive RailOp where
  | connectOp (pathLen : ℕ → ℕ → ℕ) (s : ℕ) (cands : List (ℕ × ℕ)) : RailOp
  | removeOp (u : ℕ) : RailOp

def applyOp (st : RailState) : RailOp → RailState
  | .connectOp pathLen s cands => connectStation pathLen st s cands
  | .removeOp u => removeStation st u

def applyOps (st : RailState) : List RailOp → RailState
  | [] => st
  | op :: ops => applyOps (applyOp st op) ops

/-- A run in which every `connectStation` call is made on a fresh station
identity — the `TrainStation` wrapper of a newly built unit, as in the
game's only call site for station construction. -/
def freshRun (st : RailState) : List RailOp → Prop
  | [] => True
  | op :: ops =>
    (match op with
     | .connectOp _ s _ => freshId st s
     | .removeOp _ => True) ∧ freshRun (applyOp st op) ops

/-- A cluster id that some registered station's `cluster` field points at
(a live `Cluster` object of the source; the others are garbage). -/
def liveCluster (st : RailState) (c : ℕ) : Prop :=
  ∃ s ∈ st.stations, st.clusterOf s = some c

/-- The cluster partition is consistent: every registered station is a
member of a live cluster, of no two distinct live clusters, and the two
endpoint stations of every railroad are members of one common live
cluster. -/
def PartitionConsistent (st : RailState) : Prop :=
  (∀ s ∈ st.stations, ∃ c, liveCluster st c ∧ s ∈ st.clusterSets c)
  ∧ (∀ s c c2, liveCluster st c → liveCluster st c2 →
      s ∈ st.clusterSets c → s ∈ st.clusterSets c2 → c = c2)
  ∧ (∀ r ∈ st.rails, ∃ c, liveCluster st c
      ∧ r.1 ∈ st.clusterSets c ∧ r.2 ∈ st.clusterSets c)

theorem Inv_empty : Inv emptyRailState := by
  constructor
  · intro s hs
    cases hs
  · rintro c ⟨s, hs, _⟩
    cases hs
  · intro r hr
    cases hr
  · intro a ha
    cases ha
  · intro s c hc
    simp [emptyRailState] at hc
  · intro c
    exact List.nodup_nil

theorem inv_partition (st : RailState) (hI : Inv st) : PartitionConsistent st := by
  refine ⟨?_, ?_, ?_⟩
  · intro s hs
    obtain ⟨c, hc⟩ := hI.ptr_some s hs
    exact ⟨c, ⟨s, hs, hc⟩, (hI.members_iff c ⟨s, hs, hc⟩ s).mpr ⟨hs, hc⟩⟩
  · intro s c c2 hl hl2 hm hm2
    have h1 := (hI.members_iff c hl s).mp hm
    have h2 := (hI.members_iff c2 hl2 s).mp hm2
    exact Option.some_inj.mp (h1.2.symm.trans h2.2)
  · intro r hr
    obtain ⟨h1, h2, _⟩ := hI.rails_reg r hr
    have hre : Reach st r.1 r.2 := Relation.ReflTransGen.single (Or.inl hr)
    obtain ⟨c, hc⟩ := hI.ptr_some r.1 h1
    refine ⟨c, ⟨r.1, h1, hc⟩, (hI.members_iff c ⟨r.1, h1, hc⟩ r.1).mpr ⟨h1, hc⟩,
      (hI.members_iff c ⟨r.1, h1, hc⟩ r.2).mpr ⟨h2, ?_⟩⟩
    rw [← (hI.ptr_reach r.1 h1 r.2 h2).mpr hre]
    exact hc

theorem applyOp_inv (st : RailState) (op : RailOp) (hI : Inv st)
    (hf : match op with
          | .connectOp _ s _ => freshId st s
          | .removeOp _ => True) :
    Inv (applyOp st op) := by
  cases op with
  | connectOp pathLen s cands => exact connectStation_inv pathLen st s cands hI hf
  | removeOp u => exact removeStation_inv st u hI

theorem applyOps_inv : ∀ (ops : List RailOp) (st : RailState), Inv st →
    freshRun st ops → Inv (applyOps st ops) := by
  intro ops
  induction ops with
  | nil =>
    intro st hI _
    exact hI
  | cons op rest ih =>
    intro st hI hf
    obtain ⟨h1, h2⟩ := hf
    exact ih (applyOp st op) (applyOp_inv st op hI h1) h2

theorem freshRun_append : ∀ (ops rest : List RailOp) (st : RailState),
    freshRun st (ops ++ rest) → freshRun st ops := by
  intro ops
  induction ops with
  | nil =>
    intro rest st _
    exact trivial
  | cons op tl ih =>
    intro rest st h
    obtain ⟨h1, h2⟩ := h
    exact ⟨h1, ih rest _ h2⟩

/-- C1 (amended): along any sequence of `connectStation`/`removeStation`
calls from the empty network in which `connectStation` is only ever invoked
on fresh station identities (the `TrainStation` wrapper of a newly built
unit, as at the game's call site), after each completed call the clusters
partition the active connected stations: every registered station is a
member of exactly one live cluster, and the endpoints of every railroad are
members of one common live cluster. -/
theorem claim_C1_partition (ops rest : List RailOp)
    (h : freshRun emptyRailState (ops ++ rest)) :
    PartitionConsistent (applyOps emptyRailState ops) :=
  inv_partition _ (applyOps_inv ops emptyRailState Inv_empty
    (freshRun_append ops rest emptyRailState h))

/-- Witness for the amended C1: a concrete fresh build sequence — station 1
is built, station 2 is built and connected to 1, then station 1 is
removed. -/
theorem claim_C1_witness :
    freshRun emptyRailState
      ([RailOp.connectOp (fun _ _ => 20) 1 [],
        RailOp.connectOp (fun _ _ => 20) 2 [(1, 226)],
        RailOp.removeOp 1] ++ [])
    ∧ PartitionConsistent (applyOps emptyRailState
        [RailOp.connectOp (fun _ _ => 20) 1 [],
         RailOp.connectOp (fun _ _ => 20) 2 [(1, 226)],
         RailOp.removeOp 1]) :=
  ⟨⟨⟨by decide, by decide, by decide⟩, ⟨by decide, by decide, by decide⟩,
      trivial, trivial⟩,
    claim_C1_partition
      [RailOp.connectOp (fun _ _ => 20) 1 [],
       RailOp.connectOp (fun _ _ => 20) 2 [(1, 226)],
       RailOp.removeOp 1] []
      ⟨⟨by decide, by decide, by decide⟩, ⟨by decide, by decide, by decide⟩,
        trivial, trivial⟩⟩

end RailMind
